import Mathlib

/-!
# The base-N codec of `src/baseN.c`

A shallow embedding of the generic binary-to-text codec (`baseN_init`,
`baseN_setup`, `baseN_work`, the two length estimators, the encoder and the
decoder) together with theorems about it.

Modelling conventions.

* A byte is a natural number below 256; a byte buffer is a `List Nat`.
* Every store of the encoder and of the decoder has the shape `buf[idx++] = c`.
  The output buffer is therefore modelled by the list of bytes stored so far and
  the write index `idx` is the length of that list.
* `size_t` and `uint64_t` values are natural numbers; a reduction modulo `2 ^ 64`
  is written where the C arithmetic can leave the 64-bit range.
* The host is little-endian: byte `j` of the `uint64_t` work word holds bits
  `8 * j .. 8 * j + 7`.
* A pointer that may be null is an `Option`.
-/

namespace Codec

/-! ## Data model -/

/-- The parameter set `baseN`. The fields `group` and `bitslen` are bytes in the
source, `mask` is a `size_t`, the two flags are `BOOL`s and the tables are the
encoding alphabet (`entable[i]` is the character of symbol value `i`) and the
256-entry inverse table (`detable[c]` is the symbol value of character `c`, or
`0xff`). -/
structure baseN where
  group : Nat
  bitslen : Nat
  egroup : Nat
  chunkled : Bool
  padding : Bool
  entable : List Nat
  detable : List Nat
  mask : Nat
deriving DecidableEq

/-- Result codes of the codec. -/
inductive CODECode where
  | CODECOk
  | CODECEmptyInput
  | CODECInvalidInput
  | CODECIgnoredOption
deriving DecidableEq

/-- Direction of a transform. -/
inductive CODECMethod where
  | CODECEncoding
  | CODECDecoding
deriving DecidableEq

/-- Options of `baseN_setup`; `other` stands for every option the switch does not
name. -/
inductive CODECOption where
  | CODECBaseNChunkled
  | CODECBaseNPadding
  | other (n : Nat)
deriving DecidableEq

/-- The line width `_chunklen`. -/
def _chunklen : Nat := 76

/-- Table read `entable[i]`. -/
def enc_at (p : baseN) (i : Nat) : Nat := p.entable.getD i 0

/-- Table read `detable[c]`. -/
def dec_at (p : baseN) (c : Nat) : Nat := p.detable.getD c 0

/-! ## Construction and options -/

/-- `baseN_init`: each `cdcassert` is a fatal check, a failed one gives `none`.
The tables are pointers and may be absent. `egroup` is the truncated quotient
`group * 8 / bitslen`. -/
def baseN_init (group bitslen : Nat) (entable detable : Option (List Nat)) (mask : Nat) :
    Option baseN :=
  match entable, detable with
  | some en, some de =>
    if 0 < group ∧ (0 < bitslen ∧ bitslen < 8) ∧ 0 < mask then
      some
        { group := group
          bitslen := bitslen
          egroup := group * 8 / bitslen
          chunkled := true
          padding := true
          entable := en
          detable := de
          mask := mask }
    else none
  | _, _ => none

/-- `baseN_setup`: the argument read by `va_arg(args, long)` is `v`; a flag is set
when `v` is non-zero. -/
def baseN_setup (bn : baseN) (opt : CODECOption) (v : Int) : CODECode × baseN :=
  match opt with
  | CODECOption.CODECBaseNChunkled => (CODECode.CODECOk, { bn with chunkled := decide (v ≠ 0) })
  | CODECOption.CODECBaseNPadding => (CODECode.CODECOk, { bn with padding := decide (v ≠ 0) })
  | CODECOption.other _ => (CODECode.CODECIgnoredOption, bn)

/-! ## Encoding -/

/-- `baseN_encoding_length`. The source computes `ceil((double)datalen / group)`
in floating point; for the lengths a buffer can have this is the integer ceiling
written here. -/
def baseN_encoding_length (p : baseN) (datalen : Nat) : Nat :=
  if datalen = 0 then 0
  else
    let times := (datalen + p.group - 1) / p.group
    let len := times * p.egroup
    if p.chunkled then len + (len - 1) / _chunklen * 2 else len

/-- `_chunk`: when chunking is on and the write index is a positive multiple of
76, a CR and an LF are stored. The result is the buffer, whose length is the
returned index. -/
def _chunk (p : baseN) (buf : List Nat) : List Nat :=
  if p.chunkled = true ∧ 0 < buf.length ∧ buf.length % _chunklen = 0 then buf ++ [13, 10]
  else buf

/-- The first loop of `_encoding_group`: `tmp[i + 1] = data[group - i - 1]` stores
byte `group - i - 1` of the block into byte `i + 1` of the zeroed word `t`. A
store with `i + 1 >= 8` falls outside the word and does not change `t`. -/
def _encoding_group_word (data : List Nat) (group : Nat) : Nat :=
  (List.range group).foldl
    (fun t i => if i + 1 < 8 then t + data.getD (group - i - 1) 0 * 2 ^ (8 * (i + 1)) else t) 0

/-- The `while (bits > 8)` loop of `_encoding_group`. The first argument bounds
the number of iterations; `bits` iterations always suffice when `bitslen >= 1`
(`_encoding_group_loop_fuel`). -/
def _encoding_group_loop (p : baseN) (t : Nat) : Nat → Nat → List Nat → List Nat
  | 0, _, buf => buf
  | fuel + 1, bits, buf =>
    if 8 < bits then
      let bits := bits - p.bitslen
      let buf := _chunk p buf
      _encoding_group_loop p t fuel bits (buf ++ [enc_at p ((t >>> bits) &&& p.mask)])
    else buf

/-- `_encoding_group`: `data` is the block pointer (the list from that position
on), `group` the number of bytes to encode. -/
def _encoding_group (p : baseN) (data : List Nat) (buf : List Nat) (group : Nat) : List Nat :=
  let t := _encoding_group_word data group
  let bits := (group + 1) * 8
  _encoding_group_loop p t bits bits buf

/-- The padding loop of `_encoding_left`: `while (p->padding && padding > 0)`. -/
def _encoding_left_pad (p : baseN) : Nat → List Nat → List Nat
  | 0, buf => buf
  | padding + 1, buf =>
    if p.padding = true then _encoding_left_pad p padding (_chunk p buf ++ [61]) else buf

/-- `_encoding_left`. The source computes `ceilf(left * 8.0f / bitslen)` in
floating point, exact for byte-sized operands; `padding = egroup - t` is an `int`
and the loop runs only while it is positive, which the truncated subtraction
expresses. -/
def _encoding_left (p : baseN) (data : List Nat) (datalen : Nat) (buf : List Nat) : List Nat :=
  let left := datalen % p.group
  if left = 0 then buf
  else
    let buf := _chunk p buf
    let buf := _encoding_group p (data.drop (datalen - left)) buf left
    let t := (left * 8 + p.bitslen - 1) / p.bitslen
    let padding := p.egroup - t
    _encoding_left_pad p padding buf

/-- `baseN_encoding`: the result is the written prefix of the buffer, its length
is the value stored in `*buflen`. -/
def baseN_encoding (p : baseN) (data : Option (List Nat)) (datalen : Nat) : List Nat :=
  match data with
  | none => []
  | some d =>
    if datalen = 0 then []
    else
      let n := datalen / p.group
      let buf := (List.range n).foldl
        (fun buf i => _encoding_group p (d.drop (i * p.group)) buf p.group) []
      _encoding_left p d datalen buf

/-! ## Decoding -/

/-- `baseN_decoding_length`, with the floating-point ceiling as an integer
ceiling. -/
def baseN_decoding_length (p : baseN) (datalen : Nat) : Nat :=
  if datalen = 0 then 0
  else (datalen + p.egroup - 1) / p.egroup * p.group

/-- `_check_char`: `0` skip, `-1` invalid, `1` symbol. -/
def _check_char (p : baseN) (c : Nat) : Int :=
  if c = 13 ∨ c = 10 ∨ c = 61 then 0
  else if dec_at p c = 0xff then -1
  else 1

/-- `_decoding_group`: stores `group` bytes of `tmp`, most significant first. -/
def _decoding_group (p : baseN) (tmp : Nat) (group : Nat) (buf : List Nat) : List Nat :=
  let bitlens := 8 * (p.group - 1)
  (List.range group).foldl (fun buf k => buf ++ [(tmp >>> (bitlens - 8 * k)) &&& 0xff]) buf

/-- The character loop of `baseN_decoding` over the remaining input, with the
counter `k`, the accumulator `t` and the output buffer. `none` is the early
`return FALSE`. The shift base `bitlens` is a `byte` in the source. -/
def baseN_decoding_loop (p : baseN) : List Nat → Nat → Nat → List Nat →
    Option (Nat × Nat × List Nat)
  | [], k, t, buf => some (k, t, buf)
  | c :: rest, k, t, buf =>
    let ret := _check_char p c
    if ret = 0 then baseN_decoding_loop p rest k t buf
    else if ret < 0 then none
    else
      let bitlens := (p.bitslen * (p.egroup - 1)) % 256
      let t := t ||| (((dec_at p c &&& p.mask) <<< (bitlens - p.bitslen * k)) % 2 ^ 64)
      let k := k + 1
      if k = p.egroup then
        baseN_decoding_loop p rest 0 0 (_decoding_group p t p.group buf)
      else baseN_decoding_loop p rest k t buf

/-- `baseN_decoding`: `none` is `FALSE`; `some out` is `TRUE` with the written
prefix `out`, whose length is the value stored in `*buflen`. -/
def baseN_decoding (p : baseN) (data : Option (List Nat)) (datalen : Nat) : Option (List Nat) :=
  match data with
  | none => some []
  | some d =>
    if datalen = 0 then some []
    else
      match baseN_decoding_loop p (d.take datalen) 0 0 [] with
      | none => none
      | some (k, t, buf) =>
        if 0 < k ∧ t ≠ 0 then some (_decoding_group p t (k * p.bitslen / 8) buf)
        else some buf

/-! ## The driver -/

/-- `baseN_work`: the input is the pair `data->data`, `data->length`. The result
buffer is given the capacity the estimator returns before the transform runs; the
second component is the result the transform leaves (`none` when none is
produced). -/
def baseN_work (bn : baseN) (method : CODECMethod) (data : Option (List Nat)) (length : Nat) :
    CODECode × Option (List Nat) :=
  match method with
  | CODECMethod.CODECEncoding =>
    let buflen := baseN_encoding_length bn length
    if buflen = 0 then (CODECode.CODECEmptyInput, none)
    else (CODECode.CODECOk, some (baseN_encoding bn data length))
  | CODECMethod.CODECDecoding =>
    let buflen := baseN_decoding_length bn length
    if buflen = 0 then (CODECode.CODECEmptyInput, none)
    else
      match baseN_decoding bn data length with
      | none => (CODECode.CODECInvalidInput, none)
      | some out => (CODECode.CODECOk, some out)

/-! ## The base64 parameter set of the scenarios -/

/-- Modelled from the spec: the standard base64 alphabet of the concrete
scenarios (`A`-`Z`, `a`-`z`, `0`-`9`, `+`, `/`); the table itself is built outside
`baseN.c`. -/
def base64_entable : List Nat :=
  (List.range 26).map (fun i => 65 + i) ++ (List.range 26).map (fun i => 97 + i) ++
    (List.range 10).map (fun i => 48 + i) ++ [43, 47]

/-- Modelled from the spec: the inverse table of `base64_entable`, `0xff` for
every character outside the alphabet. -/
def base64_detable : List Nat :=
  (List.range 256).map (fun c =>
    if 65 ≤ c ∧ c ≤ 90 then c - 65
    else if 97 ≤ c ∧ c ≤ 122 then c - 97 + 26
    else if 48 ≤ c ∧ c ≤ 57 then c - 48 + 52
    else if c = 43 then 62
    else if c = 47 then 63
    else 0xff)

/-- The scenario configuration `group = 3`, `bitslen = 6`, `mask = 0x3F` with
given flags, as `baseN_init` and `baseN_setup` leave it. -/
def base64 (chunkled padding : Bool) : baseN :=
  { group := 3
    bitslen := 6
    egroup := 4
    chunkled := chunkled
    padding := padding
    entable := base64_entable
    detable := base64_detable
    mask := 0x3F }

/-! ## Symbol streams -/

/-- The stores of a run of characters, each after its chunk check. -/
def emits (p : baseN) (buf : List Nat) (cs : List Nat) : List Nat :=
  cs.foldl (fun b c => _chunk p b ++ [c]) buf

/-- Characters stored by the `while (bits > 8)` loop of `_encoding_group`, in
order. -/
def _encoding_group_symbols (p : baseN) (t : Nat) : Nat → Nat → List Nat
  | 0, _ => []
  | fuel + 1, bits =>
    if 8 < bits then
      enc_at p ((t >>> (bits - p.bitslen)) &&& p.mask) ::
        _encoding_group_symbols p t fuel (bits - p.bitslen)
    else []

/-- Characters `_encoding_group` stores for a block of `group` bytes. -/
def group_symbols (p : baseN) (data : List Nat) (group : Nat) : List Nat :=
  _encoding_group_symbols p (_encoding_group_word data group) ((group + 1) * 8) ((group + 1) * 8)

/-- Characters of the first `n` full blocks. -/
def block_symbols (p : baseN) (d : List Nat) : Nat → List Nat
  | 0 => []
  | n + 1 => block_symbols p d n ++ group_symbols p (d.drop (n * p.group)) p.group

/-- Number of pad characters `_encoding_left` stores for a partial block of `left`
bytes. -/
def pad_count (p : baseN) (left : Nat) : Nat :=
  if p.padding = true then p.egroup - (left * 8 + p.bitslen - 1) / p.bitslen else 0

/-- Characters `_encoding_left` stores: the symbols of the partial block, then the
pad characters. -/
def left_symbols (p : baseN) (d : List Nat) (datalen : Nat) : List Nat :=
  if datalen % p.group = 0 then []
  else
    group_symbols p (d.drop (datalen - datalen % p.group)) (datalen % p.group) ++
      List.replicate (pad_count p (datalen % p.group)) 61

/-- The symbol stream of an input: every character the encoder stores except the
line breaks. -/
def symbol_stream (p : baseN) (d : List Nat) (datalen : Nat) : List Nat :=
  block_symbols p d (datalen / p.group) ++ left_symbols p d datalen

/-- Write index after `n` characters have been stored with chunking on. -/
def chunked_length (n : Nat) : Nat := n + 2 * ((n - 3) / 74)

/-- The input with every CR, LF and `=` deleted. -/
def strip_skipped (s : List Nat) : List Nat :=
  s.filter (fun c => decide (¬ (c = 13 ∨ c = 10 ∨ c = 61)))

/-- The end-of-input flush of `baseN_decoding`, applied to what the character loop
leaves. -/
def baseN_decoding_flush (p : baseN) : Option (Nat × Nat × List Nat) → Option (List Nat)
  | none => none
  | some (k, t, buf) =>
    if 0 < k ∧ t ≠ 0 then some (_decoding_group p t (k * p.bitslen / 8) buf) else some buf

/-- Block `b` of `x` read as a big-endian unsigned integer:
the sum over `i < group` of `byte[b * group + i] << (8 * (group - 1 - i))`. -/
def block_value (x : List Nat) (b group : Nat) : Nat :=
  ((List.range group).map (fun i => x.getD (b * group + i) 0 <<< (8 * (group - 1 - i)))).sum

/-- The alphabet characters of the symbol stream: the symbols of the full blocks
and of the partial block. -/
def alphabet_symbols (p : baseN) (d : List Nat) (datalen : Nat) : List Nat :=
  block_symbols p d (datalen / p.group) ++
    (if datalen % p.group = 0 then []
      else group_symbols p (d.drop (datalen - datalen % p.group)) (datalen % p.group))

/-- Line-break offsets of an output: a CR sits exactly at the positive multiples
of 76 and an LF exactly at the offsets above 76 that are 1 modulo 76. -/
def break_offsets (out : List Nat) : Prop :=
  ∀ j : Nat, (out[j]? = some 13 ↔ (j < out.length ∧ 0 < j ∧ j % 76 = 0)) ∧
    (out[j]? = some 10 ↔ (j < out.length ∧ 76 < j ∧ j % 76 = 1))

/-- Invariant of the chunked stores: the offsets so far are right and the write
index never rests right after a CR or right after an LF. -/
def break_invariant (out : List Nat) : Prop :=
  break_offsets out ∧ (76 < out.length → out.length % 76 ≠ 1 ∧ out.length % 76 ≠ 2)

/-- The relation between a run of characters and what is stored for it when line
breaks are inserted: `breaks_inserted cs out` holds when `out` is `cs` with an
adjacent CR LF pair put in front of some of its characters. -/
inductive breaks_inserted : List Nat → List Nat → Prop where
  | nil : breaks_inserted [] []
  | char (cs out : List Nat) (c : Nat) :
      breaks_inserted cs out → breaks_inserted (cs ++ [c]) (out ++ [c])
  | break_char (cs out : List Nat) (c : Nat) :
      breaks_inserted cs out → breaks_inserted (cs ++ [c]) (out ++ [13, 10, c])

/-- A character the decoder takes as a symbol: not skipped and not invalid. -/
def valid_symbol (p : baseN) (c : Nat) : Prop :=
  ¬ (c = 13 ∨ c = 10 ∨ c = 61) ∧ dec_at p c ≠ 0xff

/-- The accumulator after the symbols `cs` have been placed, starting from counter
`k` and accumulator `t`: the update `t |= (table[c] & mask) << (bitlens - bitslen * k)`
of `baseN_decoding`, once per symbol. -/
def accumulate (p : baseN) : List Nat → Nat → Nat → Nat
  | [], _, t => t
  | c :: cs, k, t =>
    accumulate p cs (k + 1)
      (t ||| (((dec_at p c &&& p.mask) <<<
        ((p.bitslen * (p.egroup - 1)) % 256 - p.bitslen * k)) % 2 ^ 64))

/-- The symbol values of `cs` read as digits of base `2 ^ bitslen`, most
significant first, on top of `h`. -/
def horner (p : baseN) (cs : List Nat) (h : Nat) : Nat :=
  cs.foldl (fun v c => v * 2 ^ p.bitslen + (dec_at p c &&& p.mask)) h

/-- The bytes `x[off], .., x[off + len - 1]` read as a big-endian unsigned
integer: the sum over `i < len` of `x[off + i] << (8 * (len - 1 - i))`. -/
def bytes_value (x : List Nat) (off len : Nat) : Nat :=
  ((List.range len).map (fun i => x.getD (off + i) 0 <<< (8 * (len - 1 - i)))).sum

/-- The accumulated value `A_w` of symbol window `w`: the sum over `i < egroup` of
`(detable[c_{w * egroup + i}] & mask) << ((egroup - 1 - i) * bitslen)`. -/
def group_value (p : baseN) (cs : List Nat) (w : Nat) : Nat :=
  ((List.range p.egroup).map (fun i =>
    (dec_at p (cs.getD (w * p.egroup + i) 0) &&& p.mask) <<<
      ((p.egroup - 1 - i) * p.bitslen))).sum

/-- The bytes the decoder stores for the first `m` symbol windows of `cs`. -/
def decoded_groups (p : baseN) : List Nat → Nat → List Nat
  | _, 0 => []
  | cs, m + 1 =>
    _decoding_group p (accumulate p (cs.take p.egroup) 0 0) p.group [] ++
      decoded_groups p (cs.drop p.egroup) m

/-- A parameter set `baseN_init` accepts whose blocks do not fit the 64-bit work
word: `group = 9`, `bitslen = 4`, `egroup = 18`, `mask = 0xF`, with the first
sixteen base64 characters as alphabet. -/
def wide_group_config : baseN :=
  { group := 9
    bitslen := 4
    egroup := 18
    chunkled := false
    padding := false
    entable := base64_entable
    detable := base64_detable
    mask := 0xF }

/-! ## The encoder as a run of stores -/

theorem emits_nil (p : baseN) (buf : List Nat) : emits p buf [] = buf := rfl

theorem emits_cons (p : baseN) (buf : List Nat) (c : Nat) (cs : List Nat) :
    emits p buf (c :: cs) = emits p (_chunk p buf ++ [c]) cs := rfl

theorem emits_append (p : baseN) (buf a b : List Nat) :
    emits p buf (a ++ b) = emits p (emits p buf a) b := by
  simp [emits, List.foldl_append]

/-- A second chunk check right after a first stores nothing. -/
theorem _chunk_idem (p : baseN) (buf : List Nat) : _chunk p (_chunk p buf) = _chunk p buf := by
  unfold _chunk _chunklen
  by_cases h : p.chunkled = true ∧ 0 < buf.length ∧ buf.length % 76 = 0
  · rw [if_pos h]
    have : ¬ (p.chunkled = true ∧ 0 < (buf ++ [13, 10]).length ∧ (buf ++ [13, 10]).length % 76 = 0) := by
      simp only [List.length_append, List.length_cons, List.length_nil]
      omega
    rw [if_neg this]
  · rw [if_neg h, if_neg h]

theorem emits_chunk_cons (p : baseN) (buf : List Nat) (c : Nat) (cs : List Nat) :
    emits p (_chunk p buf) (c :: cs) = emits p buf (c :: cs) := by
  rw [emits_cons, emits_cons, _chunk_idem]

/-- The symbol loop stores exactly the characters of `_encoding_group_symbols`, each
after its chunk check. -/
theorem _encoding_group_loop_eq (p : baseN) (t : Nat) (fuel : Nat) :
    ∀ (bits : Nat) (buf : List Nat),
      _encoding_group_loop p t fuel bits buf = emits p buf (_encoding_group_symbols p t fuel bits) := by
  induction fuel with
  | zero => intro bits buf; rfl
  | succ n ih =>
    intro bits buf
    by_cases h : 8 < bits
    · simp only [_encoding_group_loop, _encoding_group_symbols, if_pos h, emits_cons]
      exact ih _ _
    · simp only [_encoding_group_loop, _encoding_group_symbols, if_neg h, emits_nil]

/-- Fuel is sufficient: with `bitslen >= 1` the loop leaves by its own test
`bits > 8` within `bits` iterations, so any two bounds of at least `bits` give the
same result. -/
theorem _encoding_group_loop_fuel (p : baseN) (t : Nat) (hb : 1 ≤ p.bitslen) (f1 : Nat) :
    ∀ (f2 bits : Nat) (buf : List Nat), bits ≤ f1 → bits ≤ f2 →
      _encoding_group_loop p t f1 bits buf = _encoding_group_loop p t f2 bits buf := by
  induction f1 with
  | zero =>
    intro f2 bits buf h1 _
    have hz : bits = 0 := by omega
    subst hz
    cases f2 with
    | zero => rfl
    | succ m => simp [_encoding_group_loop]
  | succ n ih =>
    intro f2 bits buf h1 h2
    cases f2 with
    | zero =>
      have hz : bits = 0 := by omega
      subst hz
      simp [_encoding_group_loop]
    | succ m =>
      by_cases h : 8 < bits
      · simp only [_encoding_group_loop, if_pos h]
        exact ih m _ _ (by omega) (by omega)
      · simp only [_encoding_group_loop, if_neg h]

theorem _encoding_left_pad_eq (p : baseN) (n : Nat) :
    ∀ buf : List Nat, _encoding_left_pad p n buf =
      emits p buf (if p.padding = true then List.replicate n 61 else []) := by
  induction n with
  | zero => intro buf; simp [_encoding_left_pad, emits_nil]
  | succ m ih =>
    intro buf
    by_cases h : p.padding = true
    · simp only [_encoding_left_pad, if_pos h, List.replicate_succ, emits_cons]
      rw [ih, if_pos h]
    · simp only [_encoding_left_pad, if_neg h, emits_nil]

theorem _encoding_group_eq (p : baseN) (data buf : List Nat) (group : Nat) :
    _encoding_group p data buf group = emits p buf (group_symbols p data group) := by
  unfold _encoding_group group_symbols
  exact _encoding_group_loop_eq p _ _ _ _

theorem group_symbols_ne_nil (p : baseN) (data : List Nat) (group : Nat) (hg : 0 < group) :
    ∃ c cs, group_symbols p data group = c :: cs := by
  unfold group_symbols
  obtain ⟨m, hm⟩ : ∃ m, (group + 1) * 8 = m + 1 := ⟨(group + 1) * 8 - 1, by omega⟩
  have h8 : 8 < m + 1 := by omega
  rw [hm]
  simp only [_encoding_group_symbols, if_pos h8]
  exact ⟨_, _, rfl⟩

theorem _encoding_left_eq (p : baseN) (d : List Nat) (datalen : Nat) (buf : List Nat) :
    _encoding_left p d datalen buf = emits p buf (left_symbols p d datalen) := by
  unfold _encoding_left left_symbols
  by_cases h : datalen % p.group = 0
  · simp only [if_pos h, emits_nil]
  · simp only [if_neg h]
    rw [_encoding_left_pad_eq, _encoding_group_eq, emits_append]
    obtain ⟨c, cs, hc⟩ := group_symbols_ne_nil p (d.drop (datalen - datalen % p.group))
      (datalen % p.group) (Nat.pos_of_ne_zero h)
    rw [hc, emits_chunk_cons]
    unfold pad_count
    by_cases hp : p.padding = true
    · simp only [if_pos hp]
    · simp only [if_neg hp, List.replicate_zero]

theorem _encoding_blocks_eq (p : baseN) (d : List Nat) (n : Nat) (buf : List Nat) :
    (List.range n).foldl (fun buf i => _encoding_group p (d.drop (i * p.group)) buf p.group) buf =
      emits p buf (block_symbols p d n) := by
  induction n with
  | zero => rfl
  | succ m ih =>
    rw [List.range_succ, List.foldl_append, ih]
    simp only [List.foldl_cons, List.foldl_nil, block_symbols, emits_append, _encoding_group_eq]

/-- The encoder output is the symbol stream stored character by character, each
after its chunk check. -/
theorem baseN_encoding_eq (p : baseN) (d : List Nat) (datalen : Nat) :
    baseN_encoding p (some d) datalen = emits p [] (symbol_stream p d datalen) := by
  unfold baseN_encoding symbol_stream
  by_cases h : datalen = 0
  · subst h
    simp [left_symbols, block_symbols, emits_nil]
  · simp only [if_neg h]
    rw [_encoding_left_eq, _encoding_blocks_eq, emits_append]

/-- With chunking off the stores are plain appends. -/
theorem emits_unchunked (p : baseN) (hc : p.chunkled = false) (cs : List Nat) :
    ∀ buf : List Nat, emits p buf cs = buf ++ cs := by
  induction cs with
  | nil => intro buf; simp [emits_nil]
  | cons c cs ih =>
    intro buf
    rw [emits_cons, ih]
    simp [_chunk, hc]

/-- With chunking on, the write index after `m` characters is `chunked_length m`:
the first break comes after 76 characters, every later one after 74 more. -/
theorem emits_length_chunked (p : baseN) (hc : p.chunkled = true) (cs : List Nat) :
    ∀ (buf : List Nat) (m : Nat), buf.length = chunked_length m →
      (emits p buf cs).length = chunked_length (m + cs.length) := by
  induction cs with
  | nil => intro buf m h; simpa [emits_nil] using h
  | cons c cs ih =>
    intro buf m h
    rw [emits_cons, ih _ (m + 1)]
    · simp only [List.length_cons]; congr 1; omega
    · unfold _chunk _chunklen
      unfold chunked_length at h ⊢
      by_cases hk : p.chunkled = true ∧ 0 < buf.length ∧ buf.length % 76 = 0
      · rw [if_pos hk]
        simp only [List.length_append, List.length_cons, List.length_nil]
        omega
      · rw [if_neg hk]
        simp only [List.length_append, List.length_cons, List.length_nil]
        have : ¬ (0 < buf.length ∧ buf.length % 76 = 0) := fun hh => hk ⟨hc, hh⟩
        omega

theorem _encoding_group_symbols_length (p : baseN) (t : Nat) (hb : 1 ≤ p.bitslen) (fuel : Nat) :
    ∀ bits : Nat, bits ≤ fuel →
      (_encoding_group_symbols p t fuel bits).length = (bits - 8 + p.bitslen - 1) / p.bitslen := by
  induction fuel with
  | zero =>
    intro bits h
    have hz : bits = 0 := by omega
    subst hz
    simp only [_encoding_group_symbols, List.length_nil]
    rw [Nat.div_eq_of_lt (by omega)]
  | succ n ih =>
    intro bits h
    by_cases h8 : 8 < bits
    · simp only [_encoding_group_symbols, if_pos h8, List.length_cons]
      rw [ih _ (by omega)]
      have e1 : bits - 8 + p.bitslen - 1 = (bits - 8 - 1) + p.bitslen := by omega
      rw [e1, Nat.add_div_right _ (by omega : 0 < p.bitslen)]
      congr 1
      by_cases hd : p.bitslen ≤ bits - 8
      · congr 1; omega
      · rw [Nat.div_eq_of_lt (by omega), Nat.div_eq_of_lt (by omega)]
    · simp only [_encoding_group_symbols, if_neg h8, List.length_nil]
      rw [Nat.div_eq_of_lt (by omega)]

/-- A block of `group` bytes gives `ceil(group * 8 / bitslen)` symbols. -/
theorem group_symbols_length (p : baseN) (data : List Nat) (group : Nat) (hb : 1 ≤ p.bitslen) :
    (group_symbols p data group).length = (group * 8 + p.bitslen - 1) / p.bitslen := by
  unfold group_symbols
  rw [_encoding_group_symbols_length p _ hb _ _ (le_refl _)]
  congr 2
  omega

/-! ## The decoder loop -/

theorem _check_char_skip (p : baseN) (c : Nat) (h : c = 13 ∨ c = 10 ∨ c = 61) :
    _check_char p c = 0 := by
  unfold _check_char
  rw [if_pos h]

theorem _check_char_invalid (p : baseN) (c : Nat) (h : ¬ (c = 13 ∨ c = 10 ∨ c = 61))
    (hd : dec_at p c = 0xff) : _check_char p c = -1 := by
  unfold _check_char
  rw [if_neg h, if_pos hd]

theorem _check_char_symbol (p : baseN) (c : Nat) (h : ¬ (c = 13 ∨ c = 10 ∨ c = 61))
    (hd : dec_at p c ≠ 0xff) : _check_char p c = 1 := by
  unfold _check_char
  rw [if_neg h, if_neg hd]

theorem baseN_decoding_loop_skip (p : baseN) (c : Nat) (rest : List Nat) (k t : Nat)
    (buf : List Nat) (h : c = 13 ∨ c = 10 ∨ c = 61) :
    baseN_decoding_loop p (c :: rest) k t buf = baseN_decoding_loop p rest k t buf := by
  simp only [baseN_decoding_loop, _check_char_skip p c h, if_true]

theorem baseN_decoding_loop_invalid (p : baseN) (c : Nat) (rest : List Nat) (k t : Nat)
    (buf : List Nat) (h : ¬ (c = 13 ∨ c = 10 ∨ c = 61)) (hd : dec_at p c = 0xff) :
    baseN_decoding_loop p (c :: rest) k t buf = none := by
  simp [baseN_decoding_loop, _check_char_invalid p c h hd]

theorem baseN_decoding_loop_symbol (p : baseN) (c : Nat) (rest : List Nat) (k t : Nat)
    (buf : List Nat) (h : ¬ (c = 13 ∨ c = 10 ∨ c = 61)) (hd : dec_at p c ≠ 0xff) :
    baseN_decoding_loop p (c :: rest) k t buf =
      if k + 1 = p.egroup then
        baseN_decoding_loop p rest 0 0
          (_decoding_group p
            (t ||| (((dec_at p c &&& p.mask) <<<
              ((p.bitslen * (p.egroup - 1)) % 256 - p.bitslen * k)) % 2 ^ 64))
            p.group buf)
      else
        baseN_decoding_loop p rest (k + 1)
          (t ||| (((dec_at p c &&& p.mask) <<<
            ((p.bitslen * (p.egroup - 1)) % 256 - p.bitslen * k)) % 2 ^ 64)) buf := by
  simp [baseN_decoding_loop, _check_char_symbol p c h hd]

/-- The character loop only sees the characters that are not skipped. -/
theorem baseN_decoding_loop_strip (p : baseN) (s : List Nat) :
    ∀ (k t : Nat) (buf : List Nat),
      baseN_decoding_loop p s k t buf = baseN_decoding_loop p (strip_skipped s) k t buf := by
  induction s with
  | nil => intro k t buf; rfl
  | cons c rest ih =>
    intro k t buf
    by_cases h : c = 13 ∨ c = 10 ∨ c = 61
    · rw [baseN_decoding_loop_skip p c rest k t buf h, ih]
      have : strip_skipped (c :: rest) = strip_skipped rest := by
        unfold strip_skipped
        rw [List.filter_cons_of_neg (by simp only [decide_eq_true_eq, not_not]; exact h)]
      rw [this]
    · have hs : strip_skipped (c :: rest) = c :: strip_skipped rest := by
        unfold strip_skipped
        rw [List.filter_cons_of_pos (by simp only [decide_eq_true_eq]; exact h)]
      rw [hs]
      by_cases hd : dec_at p c = 0xff
      · rw [baseN_decoding_loop_invalid p c _ k t buf h hd,
          baseN_decoding_loop_invalid p c _ k t buf h hd]
      · rw [baseN_decoding_loop_symbol p c _ k t buf h hd,
          baseN_decoding_loop_symbol p c _ k t buf h hd, ih, ih]

/-- The decoder is its character loop followed by the flush, the empty input
included. -/
theorem baseN_decoding_eq (p : baseN) (s : List Nat) :
    baseN_decoding p (some s) s.length =
      baseN_decoding_flush p (baseN_decoding_loop p s 0 0 []) := by
  unfold baseN_decoding
  by_cases h : s.length = 0
  · have hs : s = [] := List.length_eq_zero.mp h
    subst hs
    simp [baseN_decoding_loop, baseN_decoding_flush]
  · simp only [if_neg h, List.take_length]
    cases hl : baseN_decoding_loop p s 0 0 [] with
    | none => rfl
    | some r =>
      obtain ⟨k, t, buf⟩ := r
      rfl

/-- The loop returns `FALSE` exactly on an input with an invalid character. -/
theorem baseN_decoding_loop_none_iff (p : baseN) (s : List Nat) :
    ∀ (k t : Nat) (buf : List Nat),
      baseN_decoding_loop p s k t buf = none ↔
        ∃ c ∈ s, ¬ (c = 13 ∨ c = 10 ∨ c = 61) ∧ dec_at p c = 0xff := by
  induction s with
  | nil => intro k t buf; simp [baseN_decoding_loop]
  | cons c rest ih =>
    intro k t buf
    by_cases h : c = 13 ∨ c = 10 ∨ c = 61
    · rw [baseN_decoding_loop_skip p c rest k t buf h, ih]
      constructor
      · rintro ⟨x, hx, hbad⟩
        exact ⟨x, List.mem_cons_of_mem _ hx, hbad⟩
      · rintro ⟨x, hx, hbad⟩
        rcases List.mem_cons.mp hx with rfl | hx
        · exact absurd h hbad.1
        · exact ⟨x, hx, hbad⟩
    · by_cases hd : dec_at p c = 0xff
      · rw [baseN_decoding_loop_invalid p c _ k t buf h hd]
        simp only [true_iff]
        exact ⟨c, List.mem_cons_self _ _, h, hd⟩
      · rw [baseN_decoding_loop_symbol p c _ k t buf h hd]
        have key : ∀ r : Option (Nat × Nat × List Nat),
            (r = none ↔ ∃ x ∈ rest, ¬ (x = 13 ∨ x = 10 ∨ x = 61) ∧ dec_at p x = 0xff) →
            (r = none ↔ ∃ x ∈ c :: rest, ¬ (x = 13 ∨ x = 10 ∨ x = 61) ∧ dec_at p x = 0xff) := by
          intro r hr
          rw [hr]
          constructor
          · rintro ⟨x, hx, hbad⟩
            exact ⟨x, List.mem_cons_of_mem _ hx, hbad⟩
          · rintro ⟨x, hx, hbad⟩
            rcases List.mem_cons.mp hx with rfl | hx
            · exact absurd hbad.2 hd
            · exact ⟨x, hx, hbad⟩
        split
        · exact key _ (ih _ _ _)
        · exact key _ (ih _ _ _)

theorem baseN_decoding_flush_none_iff (p : baseN) (r : Option (Nat × Nat × List Nat)) :
    baseN_decoding_flush p r = none ↔ r = none := by
  cases r with
  | none => simp [baseN_decoding_flush]
  | some v =>
    obtain ⟨k, t, buf⟩ := v
    simp only [baseN_decoding_flush]
    split <;> simp

theorem _decoding_group_length (p : baseN) (tmp group : Nat) (buf : List Nat) :
    (_decoding_group p tmp group buf).length = buf.length + group := by
  unfold _decoding_group
  induction group with
  | zero => simp
  | succ n ih =>
    rw [List.range_succ, List.foldl_append]
    simp only [List.foldl_cons, List.foldl_nil, List.length_append, List.length_cons,
      List.length_nil]
    rw [ih]
    omega

/-- Loop invariant of the decoder: the output grows by whole groups, and `g` groups
with `k1` pending symbols consume at least `g * egroup + k1` symbols. -/
theorem baseN_decoding_loop_count (p : baseN) (he : 0 < p.egroup) (s : List Nat) :
    ∀ (k t : Nat) (buf : List Nat) (k1 t1 : Nat) (buf1 : List Nat), k < p.egroup →
      baseN_decoding_loop p s k t buf = some (k1, t1, buf1) →
        k1 < p.egroup ∧ ∃ g : Nat, buf1.length = buf.length + g * p.group ∧
          g * p.egroup + k1 ≤ k + s.length := by
  induction s with
  | nil =>
    intro k t buf k1 t1 buf1 hk h
    simp only [baseN_decoding_loop, Option.some.injEq, Prod.mk.injEq] at h
    obtain ⟨rfl, -, rfl⟩ := h
    exact ⟨hk, 0, by simp, by simp⟩
  | cons c rest ih =>
    intro k t buf k1 t1 buf1 hk h
    by_cases hs : c = 13 ∨ c = 10 ∨ c = 61
    · rw [baseN_decoding_loop_skip p c rest k t buf hs] at h
      obtain ⟨h1, g, h2, h3⟩ := ih k t buf k1 t1 buf1 hk h
      exact ⟨h1, g, h2, by simp only [List.length_cons]; omega⟩
    · by_cases hd : dec_at p c = 0xff
      · rw [baseN_decoding_loop_invalid p c _ k t buf hs hd] at h
        exact absurd h (by simp)
      · rw [baseN_decoding_loop_symbol p c _ k t buf hs hd] at h
        by_cases hk1 : k + 1 = p.egroup
        · rw [if_pos hk1] at h
          obtain ⟨h1, g, h2, h3⟩ := ih 0 0 _ k1 t1 buf1 he h
          refine ⟨h1, g + 1, ?_, ?_⟩
          · rw [h2, _decoding_group_length]; ring
          · simp only [List.length_cons]
            have : (g + 1) * p.egroup = g * p.egroup + p.egroup := by ring
            omega
        · rw [if_neg hk1] at h
          obtain ⟨h1, g, h2, h3⟩ := ih (k + 1) _ buf k1 t1 buf1 (by omega) h
          exact ⟨h1, g, h2, by simp only [List.length_cons]; omega⟩

/-! ## Symbol counts -/

theorem ceil_div_exact (m b : Nat) (hb : 0 < b) (h : b ∣ m) : (m + b - 1) / b = m / b := by
  obtain ⟨k, rfl⟩ := h
  have e : b * k + b - 1 = (b - 1) + b * k := by omega
  rw [e, Nat.add_mul_div_left _ _ hb, Nat.div_eq_of_lt (by omega), Nat.mul_div_cancel_left _ hb]
  omega

theorem ceil_div_eq (L g : Nat) (hg : 0 < g) :
    (L + g - 1) / g = L / g + (if L % g = 0 then 0 else 1) := by
  have hdm := Nat.div_add_mod L g
  have hlt := Nat.mod_lt L hg
  by_cases hr : L % g = 0
  · rw [if_pos hr]
    have e : L + g - 1 = (g - 1) + g * (L / g) := by omega
    rw [e, Nat.add_mul_div_left _ _ hg, Nat.div_eq_of_lt (by omega)]
    omega
  · rw [if_neg hr]
    have e : L + g - 1 = (L % g - 1) + g * (L / g + 1) := by
      rw [Nat.mul_add]; omega
    rw [e, Nat.add_mul_div_left _ _ hg, Nat.div_eq_of_lt (by omega)]
    omega

theorem block_symbols_length (p : baseN) (d : List Nat) (hb : 1 ≤ p.bitslen) (n : Nat) :
    (block_symbols p d n).length = n * ((p.group * 8 + p.bitslen - 1) / p.bitslen) := by
  induction n with
  | zero => simp [block_symbols]
  | succ m ih =>
    simp only [block_symbols, List.length_append, ih, group_symbols_length p _ _ hb]
    ring

theorem left_ceil_le (p : baseN) (hb1 : 1 ≤ p.bitslen) (hb7 : p.bitslen ≤ 7) (left : Nat)
    (hl : left < p.group) :
    (left * 8 + p.bitslen - 1) / p.bitslen ≤ p.group * 8 / p.bitslen :=
  Nat.div_le_div_right (by omega)

theorem symbol_stream_length (p : baseN) (d : List Nat) (datalen : Nat)
    (hb1 : 1 ≤ p.bitslen) (hb7 : p.bitslen ≤ 7)
    (hdiv : p.bitslen ∣ p.group * 8) (he : p.egroup = p.group * 8 / p.bitslen) :
    (symbol_stream p d datalen).length =
      datalen / p.group * p.egroup + (datalen % p.group * 8 + p.bitslen - 1) / p.bitslen +
        (if datalen % p.group = 0 then 0 else pad_count p (datalen % p.group)) := by
  unfold symbol_stream left_symbols
  rw [List.length_append, block_symbols_length p d hb1, ceil_div_exact _ _ (by omega) hdiv, ← he]
  by_cases h : datalen % p.group = 0
  · rw [if_pos h, if_pos h, h]
    simp only [List.length_nil, Nat.zero_mul, Nat.zero_add, Nat.add_zero]
    rw [Nat.div_eq_of_lt (by omega : p.bitslen - 1 < p.bitslen)]
    rfl
  · rw [if_neg h, if_neg h]
    simp only [List.length_append, List.length_replicate, group_symbols_length p _ _ hb1]
    omega

theorem symbol_stream_length_padded (p : baseN) (d : List Nat) (datalen : Nat)
    (hg : 1 ≤ p.group) (hb1 : 1 ≤ p.bitslen) (hb7 : p.bitslen ≤ 7)
    (hdiv : p.bitslen ∣ p.group * 8) (he : p.egroup = p.group * 8 / p.bitslen)
    (hpad : p.padding = true ∨ datalen % p.group = 0) :
    (symbol_stream p d datalen).length = (datalen + p.group - 1) / p.group * p.egroup := by
  rw [symbol_stream_length p d datalen hb1 hb7 hdiv he, ceil_div_eq _ _ (by omega : 0 < p.group)]
  by_cases h : datalen % p.group = 0
  · rw [if_pos h, if_pos h, h]
    simp only [Nat.zero_mul, Nat.zero_add, Nat.add_zero]
    rw [Nat.div_eq_of_lt (by omega : p.bitslen - 1 < p.bitslen)]
    simp
  · rw [if_neg h, if_neg h]
    have hp : p.padding = true := by
      rcases hpad with hp | hp
      · exact hp
      · exact absurd hp h
    have hle := left_ceil_le p hb1 hb7 (datalen % p.group) (Nat.mod_lt _ (by omega))
    rw [← he] at hle
    unfold pad_count
    rw [if_pos hp, Nat.add_mul]
    omega

theorem emits_length_chunked_nil (p : baseN) (hc : p.chunkled = true) (cs : List Nat) :
    (emits p [] cs).length = chunked_length cs.length := by
  have := emits_length_chunked p hc cs [] 0 (by simp [chunked_length])
  simpa using this

/-! ## Line breaks and the decoder -/

theorem strip_skipped_append (a b : List Nat) :
    strip_skipped (a ++ b) = strip_skipped a ++ strip_skipped b := by
  simp [strip_skipped]

theorem strip_skipped_chunk (p : baseN) (buf : List Nat) :
    strip_skipped (_chunk p buf) = strip_skipped buf := by
  unfold _chunk
  split
  · rw [strip_skipped_append]
    have : strip_skipped [13, 10] = [] := by decide
    rw [this, List.append_nil]
  · rfl

theorem strip_skipped_emits (p : baseN) (cs : List Nat) :
    ∀ buf : List Nat, strip_skipped (emits p buf cs) = strip_skipped buf ++ strip_skipped cs := by
  induction cs with
  | nil => intro buf; simp [emits_nil, strip_skipped]
  | cons c cs ih =>
    intro buf
    rw [emits_cons, ih, strip_skipped_append, strip_skipped_chunk, List.append_assoc,
      ← strip_skipped_append]
    rfl

theorem _encoding_group_symbols_chunkled (p : baseN) (b : Bool) (t fuel : Nat) :
    ∀ bits : Nat, _encoding_group_symbols { p with chunkled := b } t fuel bits =
      _encoding_group_symbols p t fuel bits := by
  induction fuel with
  | zero => intro bits; rfl
  | succ n ih =>
    intro bits
    simp only [_encoding_group_symbols, ih, enc_at]

theorem block_symbols_chunkled (p : baseN) (b : Bool) (d : List Nat) (n : Nat) :
    block_symbols { p with chunkled := b } d n = block_symbols p d n := by
  induction n with
  | zero => rfl
  | succ m ih =>
    simp only [block_symbols, ih, group_symbols, _encoding_group_symbols_chunkled]

theorem symbol_stream_chunkled (p : baseN) (b : Bool) (d : List Nat) (datalen : Nat) :
    symbol_stream { p with chunkled := b } d datalen = symbol_stream p d datalen := by
  simp only [symbol_stream, block_symbols_chunkled, left_symbols, group_symbols,
    _encoding_group_symbols_chunkled, pad_count]

theorem _check_char_chunkled (p : baseN) (b : Bool) (c : Nat) :
    _check_char { p with chunkled := b } c = _check_char p c := rfl

theorem _decoding_group_chunkled (p : baseN) (b : Bool) (tmp group : Nat) (buf : List Nat) :
    _decoding_group { p with chunkled := b } tmp group buf = _decoding_group p tmp group buf := rfl

theorem baseN_decoding_loop_chunkled (p : baseN) (b : Bool) (s : List Nat) :
    ∀ (k t : Nat) (buf : List Nat),
      baseN_decoding_loop { p with chunkled := b } s k t buf = baseN_decoding_loop p s k t buf := by
  induction s with
  | nil => intro k t buf; rfl
  | cons c rest ih =>
    intro k t buf
    simp only [baseN_decoding_loop, ih, _check_char_chunkled, _decoding_group_chunkled, dec_at]

theorem baseN_decoding_chunkled (p : baseN) (b : Bool) (data : Option (List Nat)) (datalen : Nat) :
    baseN_decoding { p with chunkled := b } data datalen = baseN_decoding p data datalen := by
  simp only [baseN_decoding, baseN_decoding_loop_chunkled, _decoding_group_chunkled]

theorem baseN_decoding_congr_strip (p : baseN) (s s' : List Nat)
    (h : strip_skipped s = strip_skipped s') :
    baseN_decoding p (some s) s.length = baseN_decoding p (some s') s'.length := by
  rw [baseN_decoding_eq, baseN_decoding_eq, baseN_decoding_loop_strip p s,
    baseN_decoding_loop_strip p s', h]

/-! ## Alphabet symbols and pad characters -/

theorem _encoding_group_symbols_table (p : baseN) (t fuel : Nat) :
    ∀ bits : Nat, ∀ c ∈ _encoding_group_symbols p t fuel bits, ∃ i, c = enc_at p i := by
  induction fuel with
  | zero => intro bits c hc; simp [_encoding_group_symbols] at hc
  | succ n ih =>
    intro bits c hc
    by_cases h : 8 < bits
    · simp only [_encoding_group_symbols, if_pos h, List.mem_cons] at hc
      rcases hc with rfl | hc
      · exact ⟨_, rfl⟩
      · exact ih _ c hc
    · simp [_encoding_group_symbols, if_neg h] at hc

theorem block_symbols_table (p : baseN) (d : List Nat) (n : Nat) :
    ∀ c ∈ block_symbols p d n, ∃ i, c = enc_at p i := by
  induction n with
  | zero => intro c hc; simp [block_symbols] at hc
  | succ m ih =>
    intro c hc
    simp only [block_symbols, List.mem_append] at hc
    rcases hc with hc | hc
    · exact ih c hc
    · exact _encoding_group_symbols_table p _ _ _ c hc

theorem enc_at_mem_or_zero (p : baseN) (i : Nat) : enc_at p i ∈ p.entable ∨ enc_at p i = 0 := by
  unfold enc_at
  by_cases h : i < p.entable.length
  · left
    rw [List.getD_eq_getElem?_getD, List.getElem?_eq_getElem h]
    exact List.getElem_mem h
  · right
    exact List.getD_eq_default _ _ (by omega)

theorem count_chunk (p : baseN) (c : Nat) (h13 : c ≠ 13) (h10 : c ≠ 10) (buf : List Nat) :
    List.count c (_chunk p buf) = List.count c buf := by
  unfold _chunk
  split
  · rw [List.count_append]
    have : List.count c [13, 10] = 0 :=
      List.count_eq_zero_of_not_mem (by simp [h13, h10])
    omega
  · rfl

theorem count_emits (p : baseN) (c : Nat) (h13 : c ≠ 13) (h10 : c ≠ 10) (cs : List Nat) :
    ∀ buf : List Nat, List.count c (emits p buf cs) = List.count c buf + List.count c cs := by
  induction cs with
  | nil => intro buf; simp [emits_nil]
  | cons a cs ih =>
    intro buf
    rw [emits_cons, ih, List.count_append, count_chunk p c h13 h10, List.count_cons,
      List.count_cons, List.count_nil]
    omega

theorem symbol_stream_split (p : baseN) (d : List Nat) (datalen : Nat) :
    symbol_stream p d datalen = alphabet_symbols p d datalen ++
      List.replicate (if p.padding = true ∧ datalen % p.group ≠ 0 then
        p.egroup - (datalen % p.group * 8 + p.bitslen - 1) / p.bitslen else 0) 61 := by
  unfold symbol_stream alphabet_symbols left_symbols pad_count
  by_cases h : datalen % p.group = 0
  · simp [h]
  · by_cases hp : p.padding = true
    · simp [h, hp]
    · simp [h, hp]

theorem alphabet_symbols_table (p : baseN) (d : List Nat) (datalen : Nat) :
    ∀ c ∈ alphabet_symbols p d datalen, ∃ i, c = enc_at p i := by
  intro c hc
  unfold alphabet_symbols at hc
  rw [List.mem_append] at hc
  rcases hc with hc | hc
  · exact block_symbols_table p d _ c hc
  · by_cases h : datalen % p.group = 0
    · simp [h] at hc
    · rw [if_neg h] at hc
      exact _encoding_group_symbols_table p _ _ _ c hc

theorem alphabet_symbols_length (p : baseN) (d : List Nat) (datalen : Nat)
    (hb1 : 1 ≤ p.bitslen) (hdiv : p.bitslen ∣ p.group * 8)
    (he : p.egroup = p.group * 8 / p.bitslen) :
    (alphabet_symbols p d datalen).length =
      datalen / p.group * p.egroup + (datalen % p.group * 8 + p.bitslen - 1) / p.bitslen := by
  unfold alphabet_symbols
  rw [List.length_append, block_symbols_length p d hb1, ceil_div_exact _ _ (by omega) hdiv, ← he]
  by_cases h : datalen % p.group = 0
  · rw [if_pos h, h]
    simp only [List.length_nil, Nat.zero_mul, Nat.zero_add, Nat.add_zero]
    rw [Nat.div_eq_of_lt (by omega : p.bitslen - 1 < p.bitslen)]
    rfl
  · rw [if_neg h, group_symbols_length p _ _ hb1]

theorem count_alphabet_symbols (p : baseN) (d : List Nat) (datalen : Nat)
    (h : 61 ∉ p.entable) : List.count 61 (alphabet_symbols p d datalen) = 0 := by
  apply List.count_eq_zero_of_not_mem
  intro hm
  obtain ⟨i, hi⟩ := alphabet_symbols_table p d datalen 61 hm
  rcases enc_at_mem_or_zero p i with h1 | h1
  · rw [← hi] at h1; exact h h1
  · rw [← hi] at h1; exact absurd h1 (by decide)

/-! ## Full blocks -/

theorem _encoding_group_symbols_getElem (p : baseN) (t fuel : Nat) :
    ∀ (bits j : Nat), j < (_encoding_group_symbols p t fuel bits).length →
      (_encoding_group_symbols p t fuel bits)[j]? =
        some (enc_at p ((t >>> (bits - (j + 1) * p.bitslen)) &&& p.mask)) := by
  induction fuel with
  | zero => intro bits j hj; simp [_encoding_group_symbols] at hj
  | succ n ih =>
    intro bits j hj
    by_cases h : 8 < bits
    · simp only [_encoding_group_symbols, if_pos h] at hj ⊢
      cases j with
      | zero => simp
      | succ i =>
        simp only [List.length_cons, Nat.add_lt_add_iff_right] at hj
        rw [List.getElem?_cons_succ, ih _ i hj, Nat.sub_sub]
        have e : p.bitslen + (i + 1) * p.bitslen = (i + 1 + 1) * p.bitslen := by ring
        rw [e]
    · simp [_encoding_group_symbols, if_neg h] at hj

/-- For `group <= 7` the work word is the big-endian block value shifted left by
one byte. -/
theorem _encoding_group_word_eq (x : List Nat) (b g : Nat) (h1 : 1 ≤ g) (h7 : g ≤ 7) :
    _encoding_group_word (x.drop (b * g)) g = block_value x b g * 256 := by
  have hd : ∀ k, (x.drop (b * g)).getD k 0 = x.getD (b * g + k) 0 := by
    intro k
    simp [List.getD_eq_getElem?_getD, List.getElem?_drop]
  unfold _encoding_group_word block_value
  interval_cases g <;>
    simp [List.range_succ, hd, Nat.shiftLeft_eq] <;> ring

theorem shiftRight_word (v s : Nat) : (v * 256) >>> (8 + s) = v >>> s := by
  rw [Nat.shiftRight_add]
  congr 1
  rw [Nat.shiftRight_eq_div_pow]
  exact Nat.mul_div_cancel _ (by norm_num)

theorem group_symbols_getElem (p : baseN) (x : List Nat) (b j : Nat)
    (hg1 : 1 ≤ p.group) (hg7 : p.group ≤ 7) (hb1 : 1 ≤ p.bitslen)
    (hdiv : p.bitslen ∣ p.group * 8) (he : p.egroup = p.group * 8 / p.bitslen)
    (hj : j < p.egroup) :
    (group_symbols p (x.drop (b * p.group)) p.group)[j]? =
      some (enc_at p ((block_value x b p.group >>> (8 * p.group - (j + 1) * p.bitslen)) &&&
        p.mask)) := by
  have hlen := group_symbols_length p (x.drop (b * p.group)) p.group hb1
  rw [ceil_div_exact _ _ (by omega) hdiv, ← he] at hlen
  have hmul : p.egroup * p.bitslen = p.group * 8 := by
    rw [he]; exact Nat.div_mul_cancel hdiv
  have hle : (j + 1) * p.bitslen ≤ p.group * 8 := by
    rw [← hmul]; exact Nat.mul_le_mul_right _ (by omega)
  unfold group_symbols at hlen ⊢
  rw [_encoding_group_symbols_getElem p _ _ _ j (by rw [hlen]; exact hj),
    _encoding_group_word_eq x b p.group hg1 hg7]
  have e : (p.group + 1) * 8 - (j + 1) * p.bitslen = 8 + (8 * p.group - (j + 1) * p.bitslen) := by
    omega
  rw [e, shiftRight_word]

theorem block_symbols_getElem (p : baseN) (x : List Nat) (hb1 : 1 ≤ p.bitslen)
    (hdiv : p.bitslen ∣ p.group * 8) (he : p.egroup = p.group * 8 / p.bitslen) (n : Nat) :
    ∀ (b j : Nat), b < n → j < p.egroup →
      (block_symbols p x n)[b * p.egroup + j]? =
        (group_symbols p (x.drop (b * p.group)) p.group)[j]? := by
  have hlen : ∀ m, (block_symbols p x m).length = m * p.egroup := by
    intro m
    rw [block_symbols_length p x hb1, ceil_div_exact _ _ (by omega) hdiv, ← he]
  induction n with
  | zero => intro b j hb; omega
  | succ m ih =>
    intro b j hb hj
    simp only [block_symbols]
    by_cases hbm : b < m
    · have hlt : b * p.egroup + j < (block_symbols p x m).length := by
        rw [hlen]
        have : (b + 1) * p.egroup ≤ m * p.egroup := Nat.mul_le_mul_right _ (by omega)
        have e : (b + 1) * p.egroup = b * p.egroup + p.egroup := by ring
        omega
      rw [List.getElem?_append_left hlt]
      exact ih b j hbm hj
    · have hbe : b = m := by omega
      subst hbe
      rw [List.getElem?_append_right (by rw [hlen]; omega), hlen]
      congr 1
      omega

theorem baseN_encoding_unchunked (p : baseN) (x : List Nat) :
    baseN_encoding { p with chunkled := false } (some x) x.length =
      symbol_stream p x x.length := by
  rw [baseN_encoding_eq, emits_unchunked _ rfl, symbol_stream_chunkled]
  rfl

/-! ## The estimators and the driver -/

theorem baseN_encoding_length_eq_zero_iff (p : baseN) (datalen : Nat) (hg : 0 < p.group)
    (he : 0 < p.egroup) : baseN_encoding_length p datalen = 0 ↔ datalen = 0 := by
  unfold baseN_encoding_length
  by_cases h : datalen = 0
  · simp [h]
  · rw [if_neg h]
    simp only [h, iff_false]
    have h1 : 1 ≤ (datalen + p.group - 1) / p.group := by
      rw [Nat.le_div_iff_mul_le hg]
      omega
    have h2 : 0 < (datalen + p.group - 1) / p.group * p.egroup := Nat.mul_pos (by omega) he
    split <;> omega

theorem baseN_decoding_length_eq_zero_iff (p : baseN) (datalen : Nat) (hg : 0 < p.group)
    (he : 0 < p.egroup) : baseN_decoding_length p datalen = 0 ↔ datalen = 0 := by
  unfold baseN_decoding_length
  by_cases h : datalen = 0
  · simp [h]
  · rw [if_neg h]
    simp only [h, iff_false]
    have h1 : 1 ≤ (datalen + p.egroup - 1) / p.egroup := by
      rw [Nat.le_div_iff_mul_le he]
      omega
    exact Nat.ne_of_gt (Nat.mul_pos (by omega) hg)

/-! ## Line-break offsets -/

theorem break_invariant_nil : break_invariant [] := by
  refine ⟨?_, by simp⟩
  intro j
  simp

theorem break_invariant_char (out : List Nat) (c : Nat) (h : break_invariant out)
    (h13 : c ≠ 13) (h10 : c ≠ 10) (hL : ¬ (0 < out.length ∧ out.length % 76 = 0)) :
    break_invariant (out ++ [c]) := by
  obtain ⟨hoff, hlen⟩ := h
  refine ⟨?_, ?_⟩
  · intro j
    rcases Nat.lt_trichotomy j out.length with hj | hj | hj
    · rw [List.getElem?_append_left hj, (hoff j).1, (hoff j).2]
      simp only [List.length_append, List.length_cons, List.length_nil]
      constructor <;> constructor <;> intro hh <;> omega
    · subst hj
      rw [List.getElem?_append_right (le_refl _)]
      simp only [Nat.sub_self, List.getElem?_cons_zero, Option.some.injEq, List.length_append,
        List.length_cons, List.length_nil]
      constructor <;> constructor <;> intro hh <;> omega
    · have hge : (out ++ [c]).length ≤ j := by
        simp only [List.length_append, List.length_cons, List.length_nil]
        omega
      rw [List.getElem?_eq_none hge]
      simp only [List.length_append, List.length_cons, List.length_nil, reduceCtorEq, false_iff]
      constructor <;> intro hh <;> omega
  · simp only [List.length_append, List.length_cons, List.length_nil]
    omega

theorem break_invariant_break (out : List Nat) (c : Nat) (h : break_invariant out)
    (h13 : c ≠ 13) (h10 : c ≠ 10) (hL : 0 < out.length ∧ out.length % 76 = 0) :
    break_invariant (out ++ [13, 10, c]) := by
  obtain ⟨hoff, hlen⟩ := h
  refine ⟨?_, ?_⟩
  · intro j
    rcases Nat.lt_or_ge j out.length with hj | hj
    · rw [List.getElem?_append_left hj, (hoff j).1, (hoff j).2]
      simp only [List.length_append, List.length_cons, List.length_nil]
      constructor <;> constructor <;> intro hh <;> omega
    · rw [List.getElem?_append_right hj]
      obtain ⟨d, hd⟩ : ∃ d, j = out.length + d := ⟨j - out.length, by omega⟩
      subst hd
      simp only [Nat.add_sub_cancel_left, List.length_append, List.length_cons, List.length_nil]
      match d with
      | 0 =>
        simp only [List.getElem?_cons_zero, Option.some.injEq, true_iff, Nat.add_zero]
        constructor
        · omega
        · constructor <;> intro hh <;> omega
      | 1 =>
        simp only [List.getElem?_cons_succ, List.getElem?_cons_zero, Option.some.injEq, true_iff]
        constructor
        · constructor <;> intro hh <;> omega
        · omega
      | 2 =>
        simp only [List.getElem?_cons_succ, List.getElem?_cons_zero, Option.some.injEq]
        constructor <;> constructor <;> intro hh <;> omega
      | k + 3 =>
        simp only [List.getElem?_cons_succ, List.getElem?_nil, reduceCtorEq, false_iff]
        constructor <;> intro hh <;> omega
  · simp only [List.length_append, List.length_cons, List.length_nil]
    omega

theorem break_invariant_emits (p : baseN) (hc : p.chunkled = true) (cs : List Nat)
    (hcs : ∀ c ∈ cs, c ≠ 13 ∧ c ≠ 10) :
    ∀ buf : List Nat, break_invariant buf → break_invariant (emits p buf cs) := by
  induction cs with
  | nil => intro buf h; simpa [emits_nil] using h
  | cons c cs ih =>
    intro buf h
    rw [emits_cons]
    apply ih (fun a ha => hcs a (List.mem_cons_of_mem _ ha))
    have hcc := hcs c (List.mem_cons_self _ _)
    unfold _chunk _chunklen
    by_cases hk : p.chunkled = true ∧ 0 < buf.length ∧ buf.length % 76 = 0
    · rw [if_pos hk, List.append_assoc]
      exact break_invariant_break buf c h hcc.1 hcc.2 hk.2
    · rw [if_neg hk]
      exact break_invariant_char buf c h hcc.1 hcc.2 (fun hh => hk ⟨hc, hh⟩)

theorem symbol_stream_no_break_chars (p : baseN) (d : List Nat) (datalen : Nat)
    (h13 : 13 ∉ p.entable) (h10 : 10 ∉ p.entable) :
    ∀ c ∈ symbol_stream p d datalen, c ≠ 13 ∧ c ≠ 10 := by
  intro c hc
  rw [symbol_stream_split, List.mem_append] at hc
  rcases hc with hc | hc
  · obtain ⟨i, hi⟩ := alphabet_symbols_table p d datalen c hc
    rcases enc_at_mem_or_zero p i with h1 | h1
    · rw [← hi] at h1
      exact ⟨fun h => h13 (h ▸ h1), fun h => h10 (h ▸ h1)⟩
    · rw [← hi] at h1
      omega
  · have := List.eq_of_mem_replicate hc
    omega

/-! ## Wire format -/

theorem index_lt_table (p : baseN) (hmask : p.mask = 2 ^ p.bitslen - 1)
    (hlen : p.entable.length = 2 ^ p.bitslen) (t bits : Nat) :
    (t >>> bits) &&& p.mask < p.entable.length := by
  rw [hmask, hlen, Nat.and_pow_two_sub_one_eq_mod]
  exact Nat.mod_lt _ (Nat.two_pow_pos _)

theorem enc_at_mem (p : baseN) (i : Nat) (h : i < p.entable.length) :
    enc_at p i ∈ p.entable := by
  unfold enc_at
  rw [List.getD_eq_getElem?_getD, List.getElem?_eq_getElem h]
  exact List.getElem_mem h

theorem _encoding_group_symbols_mem (p : baseN) (hmask : p.mask = 2 ^ p.bitslen - 1)
    (hlen : p.entable.length = 2 ^ p.bitslen) (t fuel : Nat) :
    ∀ bits : Nat, ∀ c ∈ _encoding_group_symbols p t fuel bits, c ∈ p.entable := by
  induction fuel with
  | zero => intro bits c hc; simp [_encoding_group_symbols] at hc
  | succ n ih =>
    intro bits c hc
    by_cases h : 8 < bits
    · simp only [_encoding_group_symbols, if_pos h, List.mem_cons] at hc
      rcases hc with rfl | hc
      · exact enc_at_mem p _ (index_lt_table p hmask hlen _ _)
      · exact ih _ c hc
    · simp [_encoding_group_symbols, if_neg h] at hc

theorem block_symbols_mem (p : baseN) (hmask : p.mask = 2 ^ p.bitslen - 1)
    (hlen : p.entable.length = 2 ^ p.bitslen) (d : List Nat) (n : Nat) :
    ∀ c ∈ block_symbols p d n, c ∈ p.entable := by
  induction n with
  | zero => intro c hc; simp [block_symbols] at hc
  | succ m ih =>
    intro c hc
    simp only [block_symbols, List.mem_append] at hc
    rcases hc with hc | hc
    · exact ih c hc
    · exact _encoding_group_symbols_mem p hmask hlen _ _ _ c hc

theorem alphabet_symbols_mem (p : baseN) (hmask : p.mask = 2 ^ p.bitslen - 1)
    (hlen : p.entable.length = 2 ^ p.bitslen) (d : List Nat) (datalen : Nat) :
    ∀ c ∈ alphabet_symbols p d datalen, c ∈ p.entable := by
  intro c hc
  unfold alphabet_symbols at hc
  rw [List.mem_append] at hc
  rcases hc with hc | hc
  · exact block_symbols_mem p hmask hlen d _ c hc
  · by_cases h : datalen % p.group = 0
    · simp [h] at hc
    · rw [if_neg h] at hc
      exact _encoding_group_symbols_mem p hmask hlen _ _ _ c hc

theorem emits_snoc (p : baseN) (buf cs : List Nat) (c : Nat) :
    emits p buf (cs ++ [c]) = _chunk p (emits p buf cs) ++ [c] := by
  rw [emits_append]
  rfl

theorem breaks_inserted_emits (p : baseN) (cs : List Nat) :
    breaks_inserted cs (emits p [] cs) := by
  induction cs using List.reverseRecOn with
  | nil => exact breaks_inserted.nil
  | append_singleton cs c ih =>
    rw [emits_snoc]
    unfold _chunk
    split
    · rw [List.append_assoc]
      exact breaks_inserted.break_char cs _ c ih
    · exact breaks_inserted.char cs _ c ih

/-! ## Decoded bytes -/

theorem _decoding_group_eq_append (p : baseN) (tmp group : Nat) (buf : List Nat) :
    _decoding_group p tmp group buf = buf ++ _decoding_group p tmp group [] := by
  unfold _decoding_group
  induction group with
  | zero => simp
  | succ n ih =>
    rw [List.range_succ, List.foldl_append, List.foldl_append, ih]
    simp only [List.foldl_cons, List.foldl_nil, List.append_assoc]

theorem _decoding_group_nil_getElem (p : baseN) (tmp group : Nat) :
    ∀ j : Nat, j < group →
      (_decoding_group p tmp group [])[j]? =
        some ((tmp >>> (8 * (p.group - 1) - 8 * j)) &&& 0xff) := by
  induction group with
  | zero => intro j hj; omega
  | succ n ih =>
    intro j hj
    have hlen : (_decoding_group p tmp n []).length = n := by
      rw [_decoding_group_length]; simp
    have hstep : _decoding_group p tmp (n + 1) [] =
        _decoding_group p tmp n [] ++ [(tmp >>> (8 * (p.group - 1) - 8 * n)) &&& 0xff] := by
      unfold _decoding_group
      rw [List.range_succ, List.foldl_append]
      rfl
    rw [hstep]
    by_cases hjn : j < n
    · rw [List.getElem?_append_left (by rw [hlen]; exact hjn)]
      exact ih j hjn
    · have hje : j = n := by omega
      subst hje
      rw [List.getElem?_append_right (by rw [hlen]), hlen]
      simp

/-- With a truncated `egroup` the accumulator stays below `2 ^ (8 * group - 1)`, so
the first byte of a decoded group is below 128. -/
theorem _decoding_group_first_byte (p : baseN) (tmp n : Nat) (buf : List Nat) (bound : Nat)
    (hg : 1 ≤ p.group) (hbound : bound + 1 ≤ 8 * p.group) (ht : tmp < 2 ^ bound)
    (hbuf : ∀ y, buf[0]? = some y → y < 128) :
    ∀ y, (_decoding_group p tmp n buf)[0]? = some y → y < 128 := by
  intro y hy
  rw [_decoding_group_eq_append] at hy
  cases buf with
  | cons a rest =>
    simp only [List.cons_append, List.getElem?_cons_zero, Option.some.injEq] at hy
    exact hbuf a (by simp) |> fun h => hy ▸ h
  | nil =>
    rw [List.nil_append] at hy
    cases n with
    | zero =>
      have : _decoding_group p tmp 0 [] = [] := rfl
      rw [this] at hy
      simp at hy
    | succ m =>
      rw [_decoding_group_nil_getElem p tmp (m + 1) 0 (by omega)] at hy
      simp only [Nat.mul_zero, Nat.sub_zero, Option.some.injEq] at hy
      subst hy
      have h1 : tmp >>> (8 * (p.group - 1)) < 2 ^ 7 := by
        rw [Nat.shiftRight_eq_div_pow, Nat.div_lt_iff_lt_mul (Nat.two_pow_pos _), ← Nat.pow_add]
        exact Nat.lt_of_lt_of_le ht (Nat.pow_le_pow_right (by norm_num) (by omega))
      exact Nat.lt_of_le_of_lt Nat.and_le_left h1

theorem baseN_decoding_loop_first_byte (p : baseN) (hg : 1 ≤ p.group)
    (hnd : p.group * 8 % p.bitslen ≠ 0) (he : p.egroup = p.group * 8 / p.bitslen)
    (hmask : p.mask = 2 ^ p.bitslen - 1) (s : List Nat) :
    ∀ (k t : Nat) (buf : List Nat) (k1 t1 : Nat) (buf1 : List Nat),
      k < p.egroup → t < 2 ^ (p.bitslen * p.egroup) → (∀ y, buf[0]? = some y → y < 128) →
      baseN_decoding_loop p s k t buf = some (k1, t1, buf1) →
        t1 < 2 ^ (p.bitslen * p.egroup) ∧ (∀ y, buf1[0]? = some y → y < 128) := by
  have hE : p.bitslen * p.egroup + 1 ≤ 8 * p.group := by
    have h1 := Nat.div_add_mod (p.group * 8) p.bitslen
    have h2 : 0 < p.group * 8 % p.bitslen := Nat.pos_of_ne_zero hnd
    rw [he]
    omega
  induction s with
  | nil =>
    intro k t buf k1 t1 buf1 _ ht hbuf h
    simp only [baseN_decoding_loop, Option.some.injEq, Prod.mk.injEq] at h
    obtain ⟨-, rfl, rfl⟩ := h
    exact ⟨ht, hbuf⟩
  | cons c rest ih =>
    intro k t buf k1 t1 buf1 hk ht hbuf h
    by_cases hs : c = 13 ∨ c = 10 ∨ c = 61
    · rw [baseN_decoding_loop_skip p c rest k t buf hs] at h
      exact ih k t buf k1 t1 buf1 hk ht hbuf h
    · by_cases hd : dec_at p c = 0xff
      · rw [baseN_decoding_loop_invalid p c _ k t buf hs hd] at h
        exact absurd h (by simp)
      · rw [baseN_decoding_loop_symbol p c _ k t buf hs hd] at h
        have hterm : ((dec_at p c &&& p.mask) <<<
            ((p.bitslen * (p.egroup - 1)) % 256 - p.bitslen * k)) % 2 ^ 64 <
              2 ^ (p.bitslen * p.egroup) := by
          apply Nat.lt_of_le_of_lt (Nat.mod_le _ _)
          rw [Nat.shiftLeft_eq]
          have hv : dec_at p c &&& p.mask < 2 ^ p.bitslen := by
            rw [hmask, Nat.and_pow_two_sub_one_eq_mod]
            exact Nat.mod_lt _ (Nat.two_pow_pos _)
          have hsh : (p.bitslen * (p.egroup - 1)) % 256 - p.bitslen * k ≤
              p.bitslen * (p.egroup - 1) :=
            Nat.le_trans (Nat.sub_le _ _) (Nat.mod_le _ _)
          have hEe : p.bitslen * p.egroup = p.bitslen + p.bitslen * (p.egroup - 1) := by
            obtain ⟨e, hee⟩ : ∃ e, p.egroup = e + 1 := ⟨p.egroup - 1, by omega⟩
            rw [hee, Nat.add_sub_cancel]
            ring
          rw [hEe, Nat.pow_add]
          exact Nat.mul_lt_mul_of_lt_of_le hv (Nat.pow_le_pow_right (by norm_num) hsh)
            (Nat.two_pow_pos _)
        have hor := Nat.or_lt_two_pow ht hterm
        by_cases hk1 : k + 1 = p.egroup
        · rw [if_pos hk1] at h
          exact ih 0 0 _ k1 t1 buf1 (by omega) (Nat.two_pow_pos _)
            (_decoding_group_first_byte p _ p.group buf _ hg hE hor hbuf) h
        · rw [if_neg hk1] at h
          exact ih (k + 1) _ buf k1 t1 buf1 (by omega) hor hbuf h

theorem baseN_decoding_first_byte (p : baseN) (hg : 1 ≤ p.group) (hb1 : 1 ≤ p.bitslen)
    (hb7 : p.bitslen ≤ 7)
    (hnd : p.group * 8 % p.bitslen ≠ 0) (he : p.egroup = p.group * 8 / p.bitslen)
    (hmask : p.mask = 2 ^ p.bitslen - 1) (s out : List Nat)
    (h : baseN_decoding p (some s) s.length = some out) :
    ∀ y, out[0]? = some y → y < 128 := by
  have hepos : 0 < p.egroup := by
    rw [he]
    exact Nat.div_pos (by omega) (by omega)
  have hE : p.bitslen * p.egroup + 1 ≤ 8 * p.group := by
    have h1 := Nat.div_add_mod (p.group * 8) p.bitslen
    have h2 : 0 < p.group * 8 % p.bitslen := Nat.pos_of_ne_zero hnd
    rw [he]
    omega
  rw [baseN_decoding_eq] at h
  cases hl : baseN_decoding_loop p s 0 0 [] with
  | none => rw [hl] at h; simp [baseN_decoding_flush] at h
  | some r =>
    obtain ⟨k1, t1, buf1⟩ := r
    obtain ⟨ht1, hbuf1⟩ := baseN_decoding_loop_first_byte p hg hnd he hmask s 0 0 []
      k1 t1 buf1 hepos (Nat.two_pow_pos _) (by simp) hl
    rw [hl] at h
    simp only [baseN_decoding_flush] at h
    by_cases hf : 0 < k1 ∧ t1 ≠ 0
    · rw [if_pos hf] at h
      have hout : out = _decoding_group p t1 (k1 * p.bitslen / 8) buf1 := by
        simpa using h.symm
      rw [hout]
      exact _decoding_group_first_byte p t1 _ buf1 _ hg hE ht1 hbuf1
    · rw [if_neg hf] at h
      have hout : out = buf1 := by simpa using h.symm
      rw [hout]
      exact hbuf1

/-! ## The accumulator -/

theorem baseN_decoding_loop_partial (p : baseN) (cs : List Nat) :
    ∀ (rest : List Nat) (k t : Nat) (buf : List Nat), (∀ c ∈ cs, valid_symbol p c) →
      k + cs.length < p.egroup →
      baseN_decoding_loop p (cs ++ rest) k t buf =
        baseN_decoding_loop p rest (k + cs.length) (accumulate p cs k t) buf := by
  induction cs with
  | nil => intro rest k t buf _ _; rfl
  | cons c cs ih =>
    intro rest k t buf hv hk
    have hc := hv c (List.mem_cons_self _ _)
    simp only [List.length_cons] at hk
    rw [List.cons_append, baseN_decoding_loop_symbol p c _ k t buf hc.1 hc.2,
      if_neg (by omega), ih rest (k + 1) _ buf (fun a ha => hv a (List.mem_cons_of_mem _ ha))
        (by omega)]
    simp only [accumulate, List.length_cons]
    congr 1
    omega

theorem baseN_decoding_loop_group (p : baseN) (cs : List Nat) :
    ∀ (rest : List Nat) (k t : Nat) (buf : List Nat), (∀ c ∈ cs, valid_symbol p c) →
      cs ≠ [] → k + cs.length = p.egroup →
      baseN_decoding_loop p (cs ++ rest) k t buf =
        baseN_decoding_loop p rest 0 0 (_decoding_group p (accumulate p cs k t) p.group buf) := by
  induction cs with
  | nil => intro rest k t buf _ h; exact absurd rfl h
  | cons c cs ih =>
    intro rest k t buf hv _ hk
    have hc := hv c (List.mem_cons_self _ _)
    simp only [List.length_cons] at hk
    rw [List.cons_append, baseN_decoding_loop_symbol p c _ k t buf hc.1 hc.2]
    cases cs with
    | nil =>
      simp only [List.length_nil] at hk
      rw [if_pos (by omega)]
      rfl
    | cons c2 cs2 =>
      simp only [List.length_cons] at hk
      rw [if_neg (by omega)]
      rw [ih rest (k + 1) _ buf (fun a ha => hv a (List.mem_cons_of_mem _ ha)) (by simp)
        (by simp only [List.length_cons]; omega)]
      rfl

/-- One accumulator update in the range where nothing is truncated: the new symbol
value lands right below what is already there. -/
theorem accumulate_step (p : baseN) (hb64 : p.bitslen * p.egroup ≤ 64) (H k v : Nat)
    (hk : k < p.egroup) (hv : v < 2 ^ p.bitslen) :
    (H <<< (p.bitslen * (p.egroup - k))) |||
        ((v <<< ((p.bitslen * (p.egroup - 1)) % 256 - p.bitslen * k)) % 2 ^ 64) =
      (H * 2 ^ p.bitslen + v) <<< (p.bitslen * (p.egroup - (k + 1))) := by
  obtain ⟨e, he⟩ : ∃ e, p.egroup = k + 1 + e := ⟨p.egroup - (k + 1), by omega⟩
  have h1 : p.bitslen * (p.egroup - 1) = p.bitslen * k + p.bitslen * e := by
    rw [he, ← Nat.mul_add]; congr 1; omega
  have h2 : p.bitslen * (p.egroup - k) = p.bitslen + p.bitslen * e := by
    rw [he]
    have : k + 1 + e - k = 1 + e := by omega
    rw [this, Nat.mul_add, Nat.mul_one]
  have h3 : p.bitslen * (p.egroup - (k + 1)) = p.bitslen * e := by
    rw [he]; congr 1; omega
  have h4 : p.bitslen * p.egroup = p.bitslen * k + (p.bitslen + p.bitslen * e) := by
    rw [he]; ring
  have hlt256 : p.bitslen * (p.egroup - 1) < 256 := by
    have : p.bitslen * (p.egroup - 1) ≤ p.bitslen * p.egroup :=
      Nat.mul_le_mul_left _ (Nat.sub_le _ _)
    omega
  rw [Nat.mod_eq_of_lt hlt256, h1, Nat.add_sub_cancel_left, h2, h3]
  have hterm : v <<< (p.bitslen * e) < 2 ^ (p.bitslen + p.bitslen * e) := by
    rw [Nat.shiftLeft_eq, Nat.pow_add]
    exact Nat.mul_lt_mul_of_lt_of_le hv (le_refl _) (Nat.two_pow_pos _)
  have hterm64 : v <<< (p.bitslen * e) < 2 ^ 64 :=
    Nat.lt_of_lt_of_le hterm (Nat.pow_le_pow_right (by norm_num) (by omega))
  rw [Nat.mod_eq_of_lt hterm64]
  rw [Nat.shiftLeft_eq H, Nat.mul_comm H, ← Nat.mul_add_lt_is_or hterm H]
  rw [Nat.shiftLeft_eq, Nat.shiftLeft_eq, Nat.pow_add]
  ring

theorem accumulate_horner (p : baseN) (hb64 : p.bitslen * p.egroup ≤ 64)
    (hmask : p.mask = 2 ^ p.bitslen - 1) (cs : List Nat) :
    ∀ (k H : Nat), k + cs.length ≤ p.egroup →
      accumulate p cs k (H <<< (p.bitslen * (p.egroup - k))) =
        horner p cs H <<< (p.bitslen * (p.egroup - (k + cs.length))) := by
  induction cs with
  | nil => intro k H _; simp [accumulate, horner]
  | cons c cs ih =>
    intro k H hk
    simp only [List.length_cons] at hk
    have hv : dec_at p c &&& p.mask < 2 ^ p.bitslen := by
      rw [hmask, Nat.and_pow_two_sub_one_eq_mod]
      exact Nat.mod_lt _ (Nat.two_pow_pos _)
    simp only [accumulate, horner, List.foldl_cons, List.length_cons]
    rw [accumulate_step p hb64 H k _ (by omega) hv, ih (k + 1) _ (by omega)]
    unfold horner
    congr 2
    omega

theorem accumulate_zero (p : baseN) (hb64 : p.bitslen * p.egroup ≤ 64)
    (hmask : p.mask = 2 ^ p.bitslen - 1) (cs : List Nat) (h : cs.length ≤ p.egroup) :
    accumulate p cs 0 0 = horner p cs 0 <<< (p.bitslen * (p.egroup - cs.length)) := by
  have := accumulate_horner p hb64 hmask cs 0 0 (by omega)
  simpa using this

/-- The accumulator as a base `2 ^ bitslen` number whenever every masked table
value fits `bitslen` bits, whatever the mask. -/
theorem accumulate_horner_of_fit (p : baseN) (hb64 : p.bitslen * p.egroup ≤ 64)
    (cs : List Nat) :
    (∀ c ∈ cs, dec_at p c &&& p.mask < 2 ^ p.bitslen) →
      ∀ (k H : Nat), k + cs.length ≤ p.egroup →
        accumulate p cs k (H <<< (p.bitslen * (p.egroup - k))) =
          horner p cs H <<< (p.bitslen * (p.egroup - (k + cs.length))) := by
  induction cs with
  | nil => intro _ k H _; simp [accumulate, horner]
  | cons c cs ih =>
    intro hfit k H hk
    simp only [List.length_cons] at hk
    have hv := hfit c (List.mem_cons_self _ _)
    simp only [accumulate, horner, List.foldl_cons, List.length_cons]
    rw [accumulate_step p hb64 H k _ (by omega) hv,
      ih (fun a ha => hfit a (List.mem_cons_of_mem _ ha)) (k + 1) _ (by omega)]
    unfold horner
    congr 2
    omega

theorem accumulate_zero_of_fit (p : baseN) (hb64 : p.bitslen * p.egroup ≤ 64)
    (cs : List Nat) (hfit : ∀ c ∈ cs, dec_at p c &&& p.mask < 2 ^ p.bitslen)
    (h : cs.length ≤ p.egroup) :
    accumulate p cs 0 0 = horner p cs 0 <<< (p.bitslen * (p.egroup - cs.length)) := by
  have := accumulate_horner_of_fit p hb64 cs hfit 0 0 (by omega)
  simpa using this

/-- A masked table value fits `bitslen` bits when the mask is `2 ^ bitslen - 1`, and
also when the table entry itself is a symbol value below `2 ^ bitslen`. -/
theorem masked_value_fits (p : baseN) (c : Nat)
    (hcfg : p.mask = 2 ^ p.bitslen - 1 ∨ dec_at p c < 2 ^ p.bitslen) :
    dec_at p c &&& p.mask < 2 ^ p.bitslen := by
  rcases hcfg with hmask | hdet
  · rw [hmask, Nat.and_pow_two_sub_one_eq_mod]
    exact Nat.mod_lt _ (Nat.two_pow_pos _)
  · exact Nat.lt_of_le_of_lt Nat.and_le_left hdet

theorem horner_eq_sum (p : baseN) (cs : List Nat) :
    ∀ H : Nat, horner p cs H = H * 2 ^ (p.bitslen * cs.length) +
      ((List.range cs.length).map (fun i =>
        (dec_at p (cs.getD i 0) &&& p.mask) <<< ((cs.length - 1 - i) * p.bitslen))).sum := by
  induction cs with
  | nil => intro H; simp [horner]
  | cons c cs ih =>
    intro H
    have hstep : horner p (c :: cs) H = horner p cs (H * 2 ^ p.bitslen + (dec_at p c &&& p.mask)) :=
      rfl
    rw [hstep, ih, List.length_cons, List.range_succ_eq_map, List.map_cons, List.sum_cons,
      List.map_map]
    have hmap : (List.map ((fun i => (dec_at p ((c :: cs).getD i 0) &&& p.mask) <<<
          ((cs.length + 1 - 1 - i) * p.bitslen)) ∘ Nat.succ) (List.range cs.length)) =
        (List.map (fun i => (dec_at p (cs.getD i 0) &&& p.mask) <<<
          ((cs.length - 1 - i) * p.bitslen)) (List.range cs.length)) := by
      apply List.map_congr_left
      intro i hi
      have hi' : i < cs.length := List.mem_range.mp hi
      simp only [Function.comp, Nat.succ_eq_add_one, List.getD_cons_succ]
      congr 2
      omega
    rw [hmap]
    simp only [List.getD_cons_zero, Nat.add_sub_cancel, Nat.sub_zero, Nat.shiftLeft_eq]
    have e : p.bitslen * (cs.length + 1) = p.bitslen + p.bitslen * cs.length := by ring
    rw [e, Nat.pow_add, Nat.mul_comm cs.length p.bitslen]
    ring

theorem decoded_groups_length (p : baseN) (m : Nat) :
    ∀ cs : List Nat, (decoded_groups p cs m).length = m * p.group := by
  induction m with
  | zero => intro cs; simp [decoded_groups]
  | succ n ih =>
    intro cs
    simp only [decoded_groups, List.length_append, ih, _decoding_group_length, List.length_nil]
    ring

theorem decoded_groups_getElem (p : baseN) (m : Nat) :
    ∀ (cs : List Nat) (w j : Nat), w < m → j < p.group →
      (decoded_groups p cs m)[w * p.group + j]? =
        (_decoding_group p (accumulate p ((cs.drop (w * p.egroup)).take p.egroup) 0 0)
          p.group [])[j]? := by
  induction m with
  | zero => intro cs w j hw; omega
  | succ n ih =>
    intro cs w j hw hj
    have hlen : (_decoding_group p (accumulate p (cs.take p.egroup) 0 0) p.group []).length =
        p.group := by
      rw [_decoding_group_length]; simp
    simp only [decoded_groups]
    cases w with
    | zero =>
      rw [List.getElem?_append_left (by rw [hlen]; omega)]
      simp
    | succ w' =>
      have hge : p.group ≤ (w' + 1) * p.group + j := by
        rw [Nat.add_mul]; omega
      rw [List.getElem?_append_right (by rw [hlen]; exact hge), hlen]
      have e1 : (w' + 1) * p.group + j - p.group = w' * p.group + j := by
        rw [Nat.add_mul]; omega
      rw [e1, ih (cs.drop p.egroup) w' j (by omega) hj, List.drop_drop]
      have e2 : p.egroup + w' * p.egroup = (w' + 1) * p.egroup := by ring
      rw [e2]

theorem baseN_decoding_loop_groups (p : baseN) (he : 0 < p.egroup) (m : Nat) :
    ∀ (cs buf : List Nat), (∀ c ∈ cs, valid_symbol p c) → cs.length = m * p.egroup →
      baseN_decoding_loop p cs 0 0 buf = some (0, 0, buf ++ decoded_groups p cs m) := by
  induction m with
  | zero =>
    intro cs buf _ hlen
    have hcs : cs = [] := List.length_eq_zero.mp (by simpa using hlen)
    subst hcs
    simp [baseN_decoding_loop, decoded_groups]
  | succ n ih =>
    intro cs buf hv hlen
    have hle : p.egroup ≤ cs.length := by
      rw [hlen, Nat.add_mul]; omega
    have htake : (cs.take p.egroup).length = p.egroup := by
      rw [List.length_take]; omega
    have hsplit : cs = cs.take p.egroup ++ cs.drop p.egroup := (List.take_append_drop _ _).symm
    have hne : cs.take p.egroup ≠ [] := by
      intro h
      rw [h] at htake
      simp at htake
      omega
    conv_lhs => rw [hsplit]
    rw [baseN_decoding_loop_group p (cs.take p.egroup) (cs.drop p.egroup) 0 0 buf
      (fun c hc => hv c (List.mem_of_mem_take hc)) hne (by omega),
      ih (cs.drop p.egroup) _ (fun c hc => hv c (List.mem_of_mem_drop hc))
        (by rw [List.length_drop, hlen, Nat.add_mul]; omega),
      _decoding_group_eq_append]
    simp only [decoded_groups, List.append_assoc]

theorem group_value_eq_horner (p : baseN) (cs : List Nat) (w : Nat)
    (hlen : (w + 1) * p.egroup ≤ cs.length) :
    horner p ((cs.drop (w * p.egroup)).take p.egroup) 0 = group_value p cs w := by
  have htake : ((cs.drop (w * p.egroup)).take p.egroup).length = p.egroup := by
    rw [List.length_take, List.length_drop]
    rw [Nat.add_mul] at hlen
    omega
  rw [horner_eq_sum, htake]
  unfold group_value
  simp only [Nat.zero_mul, Nat.zero_add]
  congr 1
  apply List.map_congr_left
  intro i hi
  have hi' : i < p.egroup := List.mem_range.mp hi
  congr 3
  rw [List.getD_eq_getElem?_getD, List.getD_eq_getElem?_getD, List.getElem?_take,
    if_pos hi', List.getElem?_drop]

/-! ## Big-endian block values -/

theorem block_value_eq_bytes_value (x : List Nat) (b g : Nat) :
    block_value x b g = bytes_value x (b * g) g := rfl

theorem _encoding_group_word_bytes (x : List Nat) (off len : Nat) (h7 : len ≤ 7) :
    _encoding_group_word (x.drop off) len = bytes_value x off len * 256 := by
  have hd : ∀ k, (x.drop off).getD k 0 = x.getD (off + k) 0 := by
    intro k
    simp [List.getD_eq_getElem?_getD, List.getElem?_drop]
  unfold _encoding_group_word bytes_value
  interval_cases len <;>
    simp [List.range_succ, hd, Nat.shiftLeft_eq] <;> ring

theorem bytes_value_lt (x : List Nat) (off len : Nat) (h7 : len ≤ 7)
    (hx : ∀ i, x.getD i 0 < 256) : bytes_value x off len < 2 ^ (8 * len) := by
  unfold bytes_value
  simp only [List.getD_eq_getElem?_getD] at hx ⊢
  have h0 := hx off
  have h1 := hx (off + 1)
  have h2 := hx (off + 2)
  have h3 := hx (off + 3)
  have h4 := hx (off + 4)
  have h5 := hx (off + 5)
  have h6 := hx (off + 6)
  interval_cases len <;>
    simp [List.range_succ, Nat.shiftLeft_eq, List.getD_eq_getElem?_getD] <;> omega

theorem bytes_value_byte (x : List Nat) (off len j : Nat) (h7 : len ≤ 7) (hj : j < len)
    (hx : ∀ i, x.getD i 0 < 256) :
    (bytes_value x off len >>> (8 * (len - 1 - j))) &&& 0xff = x.getD (off + j) 0 := by
  have e : (0xff : Nat) = 2 ^ 8 - 1 := by norm_num
  rw [e, Nat.and_pow_two_sub_one_eq_mod, Nat.shiftRight_eq_div_pow]
  unfold bytes_value
  simp only [List.getD_eq_getElem?_getD] at hx ⊢
  have h0 := hx off
  have h1 := hx (off + 1)
  have h2 := hx (off + 2)
  have h3 := hx (off + 3)
  have h4 := hx (off + 4)
  have h5 := hx (off + 5)
  have h6 := hx (off + 6)
  interval_cases len <;> interval_cases j <;>
    simp [List.range_succ, Nat.shiftLeft_eq, List.getD_eq_getElem?_getD] <;> omega

theorem bytes_value_eq_zero_iff (x : List Nat) (off len : Nat) (h7 : len ≤ 7) :
    bytes_value x off len = 0 ↔ ∀ i, i < len → x.getD (off + i) 0 = 0 := by
  unfold bytes_value
  interval_cases len <;>
    simp [List.range_succ, Nat.shiftLeft_eq, Nat.forall_lt_succ, and_assoc]

/-! ## The partial block -/

theorem ceil_div_bounds (a b : Nat) (hb : 0 < b) :
    a ≤ (a + b - 1) / b * b ∧ (a + b - 1) / b * b < a + b := by
  have h1 := Nat.div_mul_le_self (a + b - 1) b
  have h2 := Nat.lt_div_mul_add (a := a + b - 1) hb
  constructor <;> omega

theorem shiftRight_partial (W b left n j : Nat) (hlo : left * 8 ≤ n * b)
    (hhi : n * b < left * 8 + 8) (hj : j < n) :
    (W * 256) >>> ((left + 1) * 8 - (j + 1) * b) =
      (W <<< (n * b - 8 * left)) >>> ((n - 1 - j) * b) := by
  obtain ⟨d, hd⟩ : ∃ d, n = j + 1 + d := ⟨n - (j + 1), by omega⟩
  subst hd
  have e1 : (j + 1 + d) * b = (j + 1) * b + d * b := by ring
  have e2 : j + 1 + d - 1 - j = d := by omega
  rw [e2]
  rw [e1] at hlo hhi
  have e3 : (left + 1) * 8 - (j + 1) * b = (8 - ((j + 1 + d) * b - 8 * left)) + d * b := by
    rw [e1]; omega
  have e4 : W * 256 = W * 2 ^ ((j + 1 + d) * b - 8 * left) *
      2 ^ (8 - ((j + 1 + d) * b - 8 * left)) := by
    rw [Nat.mul_assoc, ← Nat.pow_add]
    have : (j + 1 + d) * b - 8 * left + (8 - ((j + 1 + d) * b - 8 * left)) = 8 := by
      rw [e1]; omega
    rw [this]
  rw [e3, Nat.shiftRight_eq_div_pow, Nat.shiftRight_eq_div_pow, Nat.shiftLeft_eq, e4,
    Nat.pow_add, Nat.mul_comm (2 ^ (8 - ((j + 1 + d) * b - 8 * left))) (2 ^ (d * b)),
    Nat.mul_div_mul_right _ _ (Nat.two_pow_pos _)]

theorem partial_symbols_getElem (p : baseN) (x : List Nat) (off left j : Nat)
    (hb1 : 1 ≤ p.bitslen) (hb7 : p.bitslen ≤ 7) (h7 : left ≤ 7)
    (hj : j < (left * 8 + p.bitslen - 1) / p.bitslen) :
    (group_symbols p (x.drop off) left)[j]? =
      some (enc_at p
        (((bytes_value x off left <<< ((left * 8 + p.bitslen - 1) / p.bitslen * p.bitslen -
            8 * left)) >>>
          (((left * 8 + p.bitslen - 1) / p.bitslen - 1 - j) * p.bitslen)) &&& p.mask)) := by
  have hlen := group_symbols_length p (x.drop off) left hb1
  obtain ⟨hlo, hhi⟩ := ceil_div_bounds (left * 8) p.bitslen (by omega)
  unfold group_symbols at hlen ⊢
  rw [_encoding_group_symbols_getElem p _ _ _ j (by rw [hlen]; exact hj),
    _encoding_group_word_bytes x off left h7,
    shiftRight_partial _ p.bitslen left _ j hlo (by omega) hj]

/-! ## Decoding an encoding -/

theorem _encoding_group_symbols_valid (p : baseN) (hb7 : p.bitslen ≤ 7)
    (hmask : p.mask = 2 ^ p.bitslen - 1)
    (htab : ∀ i, i < 2 ^ p.bitslen → dec_at p (enc_at p i) = i)
    (hfree : ∀ i, i < 2 ^ p.bitslen →
      enc_at p i ≠ 13 ∧ enc_at p i ≠ 10 ∧ enc_at p i ≠ 61) (t fuel : Nat) :
    ∀ bits : Nat, ∀ c ∈ _encoding_group_symbols p t fuel bits, valid_symbol p c := by
  induction fuel with
  | zero => intro bits c hc; simp [_encoding_group_symbols] at hc
  | succ n ih =>
    intro bits c hc
    by_cases h : 8 < bits
    · simp only [_encoding_group_symbols, if_pos h, List.mem_cons] at hc
      rcases hc with rfl | hc
      · have hidx : (t >>> (bits - p.bitslen)) &&& p.mask < 2 ^ p.bitslen := by
          rw [hmask, Nat.and_pow_two_sub_one_eq_mod]
          exact Nat.mod_lt _ (Nat.two_pow_pos _)
        have h128 : 2 ^ p.bitslen ≤ 2 ^ 7 := Nat.pow_le_pow_right (by norm_num) hb7
        obtain ⟨f1, f2, f3⟩ := hfree _ hidx
        refine ⟨?_, ?_⟩
        · rintro (h1 | h1 | h1)
          · exact f1 h1
          · exact f2 h1
          · exact f3 h1
        · rw [htab _ hidx]
          omega
      · exact ih _ c hc
    · simp [_encoding_group_symbols, if_neg h] at hc

theorem horner_encoding_group_symbols (p : baseN) (hb1 : 1 ≤ p.bitslen) (hb7 : p.bitslen ≤ 7)
    (hmask : p.mask = 2 ^ p.bitslen - 1)
    (htab : ∀ i, i < 2 ^ p.bitslen → dec_at p (enc_at p i) = i) (t fuel : Nat) :
    ∀ bits : Nat,
      horner p (_encoding_group_symbols p t fuel bits) (t >>> bits) =
        t >>> (bits - (_encoding_group_symbols p t fuel bits).length * p.bitslen) := by
  induction fuel with
  | zero => intro bits; simp [_encoding_group_symbols, horner]
  | succ n ih =>
    intro bits
    by_cases h : 8 < bits
    · simp only [_encoding_group_symbols, if_pos h, List.length_cons]
      have hidx : (t >>> (bits - p.bitslen)) &&& p.mask < 2 ^ p.bitslen := by
        rw [hmask, Nat.and_pow_two_sub_one_eq_mod]
        exact Nat.mod_lt _ (Nat.two_pow_pos _)
      have hstep : ∀ (c : Nat) (cs : List Nat) (H : Nat),
          horner p (c :: cs) H = horner p cs (H * 2 ^ p.bitslen + (dec_at p c &&& p.mask)) :=
        fun _ _ _ => rfl
      rw [hstep, htab _ hidx]
      have hH : t >>> bits * 2 ^ p.bitslen +
          ((t >>> (bits - p.bitslen)) &&& p.mask &&& p.mask) = t >>> (bits - p.bitslen) := by
        rw [hmask, Nat.and_pow_two_sub_one_eq_mod, Nat.and_pow_two_sub_one_eq_mod,
          Nat.mod_mod]
        obtain ⟨m, hm⟩ : ∃ m, bits = m + p.bitslen := ⟨bits - p.bitslen, by omega⟩
        rw [hm, Nat.add_sub_cancel, Nat.shiftRight_add, Nat.shiftRight_eq_div_pow _ p.bitslen,
          Nat.mul_comm]
        exact Nat.div_add_mod _ _
      rw [hH, ih]
      congr 1
      rw [Nat.add_mul, Nat.one_mul, Nat.sub_sub, Nat.add_comm]
    · simp [_encoding_group_symbols, if_neg h, horner]

theorem shiftRight_eq_zero_of_lt (t n : Nat) (h : t < 2 ^ n) : t >>> n = 0 := by
  rw [Nat.shiftRight_eq_div_pow]
  exact Nat.div_eq_of_lt h

/-- The decoder accumulator of the symbols of a full block is the block value. -/
theorem accumulate_full_block (p : baseN) (x : List Nat) (k : Nat)
    (hg7 : p.group ≤ 7) (hb1 : 1 ≤ p.bitslen) (hb7 : p.bitslen ≤ 7)
    (hdiv : p.bitslen ∣ p.group * 8) (he : p.egroup = p.group * 8 / p.bitslen)
    (hmask : p.mask = 2 ^ p.bitslen - 1)
    (htab : ∀ i, i < 2 ^ p.bitslen → dec_at p (enc_at p i) = i)
    (hx : ∀ i, x.getD i 0 < 256) :
    accumulate p (group_symbols p (x.drop (k * p.group)) p.group) 0 0 =
      bytes_value x (k * p.group) p.group := by
  have hmul : p.bitslen * p.egroup = p.group * 8 := by
    rw [he]
    exact Nat.mul_div_cancel' hdiv
  have hlen := group_symbols_length p (x.drop (k * p.group)) p.group hb1
  rw [ceil_div_exact _ _ (by omega) hdiv, ← he] at hlen
  rw [accumulate_zero p (by omega) hmask _ (by omega), hlen, Nat.sub_self, Nat.mul_zero,
    Nat.shiftLeft_zero]
  unfold group_symbols at hlen ⊢
  have hT : _encoding_group_word (x.drop (k * p.group)) p.group < 2 ^ ((p.group + 1) * 8) := by
    rw [_encoding_group_word_bytes x _ _ hg7]
    have hV := bytes_value_lt x (k * p.group) p.group hg7 hx
    have e : (p.group + 1) * 8 = 8 * p.group + 8 := by ring
    rw [e, Nat.pow_add]
    exact Nat.mul_lt_mul_of_lt_of_le hV (le_refl _) (by norm_num)
  have h0 := horner_encoding_group_symbols p hb1 hb7 hmask htab
    (_encoding_group_word (x.drop (k * p.group)) p.group) ((p.group + 1) * 8) ((p.group + 1) * 8)
  rw [shiftRight_eq_zero_of_lt _ _ hT, hlen] at h0
  rw [h0, _encoding_group_word_bytes x _ _ hg7]
  have e : (p.group + 1) * 8 - p.egroup * p.bitslen = 8 := by
    rw [Nat.mul_comm p.egroup]; omega
  rw [e, Nat.shiftRight_eq_div_pow]
  exact Nat.mul_div_cancel _ (by norm_num)

/-- The decoder accumulator of the symbols of a partial block of `left` bytes is
their value moved to the top of the group. -/
theorem accumulate_partial_block (p : baseN) (x : List Nat) (off left : Nat)
    (hl1 : 1 ≤ left) (hlg : left < p.group) (hg7 : p.group ≤ 7) (hb1 : 1 ≤ p.bitslen)
    (hb7 : p.bitslen ≤ 7)
    (hdiv : p.bitslen ∣ p.group * 8) (he : p.egroup = p.group * 8 / p.bitslen)
    (hmask : p.mask = 2 ^ p.bitslen - 1)
    (htab : ∀ i, i < 2 ^ p.bitslen → dec_at p (enc_at p i) = i)
    (hx : ∀ i, x.getD i 0 < 256) :
    accumulate p (group_symbols p (x.drop off) left) 0 0 =
      bytes_value x off left <<< (8 * (p.group - left)) := by
  have hmul : p.bitslen * p.egroup = p.group * 8 := by
    rw [he]
    exact Nat.mul_div_cancel' hdiv
  have hlen := group_symbols_length p (x.drop off) left hb1
  obtain ⟨hlo, hhi⟩ := ceil_div_bounds (left * 8) p.bitslen (by omega)
  have hn1 : 1 ≤ (left * 8 + p.bitslen - 1) / p.bitslen := by
    rw [Nat.le_div_iff_mul_le (by omega)]
    omega
  have hnle : (left * 8 + p.bitslen - 1) / p.bitslen ≤ p.egroup := by
    rw [he]
    exact Nat.div_le_div_right (by omega)
  rw [accumulate_zero p (by omega) hmask _ (by rw [hlen]; exact hnle), hlen]
  unfold group_symbols at hlen ⊢
  have hT : _encoding_group_word (x.drop off) left < 2 ^ ((left + 1) * 8) := by
    rw [_encoding_group_word_bytes x _ _ (by omega)]
    have hV := bytes_value_lt x off left (by omega) hx
    have e : (left + 1) * 8 = 8 * left + 8 := by ring
    rw [e, Nat.pow_add]
    exact Nat.mul_lt_mul_of_lt_of_le hV (le_refl _) (by norm_num)
  have h0 := horner_encoding_group_symbols p hb1 hb7 hmask htab
    (_encoding_group_word (x.drop off) left) ((left + 1) * 8) ((left + 1) * 8)
  rw [shiftRight_eq_zero_of_lt _ _ hT, hlen] at h0
  rw [h0, _encoding_group_word_bytes x _ _ (by omega)]
  obtain ⟨n, hn⟩ : ∃ n, (left * 8 + p.bitslen - 1) / p.bitslen = n + 1 :=
    ⟨(left * 8 + p.bitslen - 1) / p.bitslen - 1, by omega⟩
  rw [hn] at hlo hhi hnle ⊢
  have hsp := shiftRight_partial (bytes_value x off left) p.bitslen left (n + 1) n hlo
    (by omega) (by omega)
  have e1 : (left + 1) * 8 - (n + 1) * p.bitslen = (left + 1) * 8 - (n + 1) * p.bitslen := rfl
  rw [hsp]
  have e2 : (n + 1 - 1 - n) * p.bitslen = 0 := by
    have : n + 1 - 1 - n = 0 := by omega
    rw [this, Nat.zero_mul]
  rw [e2, Nat.shiftRight_zero, ← Nat.shiftLeft_add]
  congr 1
  have e3 : p.bitslen * (p.egroup - (n + 1)) = p.bitslen * p.egroup - (n + 1) * p.bitslen := by
    rw [Nat.mul_sub, Nat.mul_comm p.bitslen (n + 1)]
  have e4 : (n + 1) * p.bitslen ≤ p.bitslen * p.egroup := by
    rw [Nat.mul_comm p.bitslen]
    exact Nat.mul_le_mul_right _ hnle
  rw [e3]
  omega

theorem _decoding_group_eq_take (p : baseN) (x : List Nat) (off n t : Nat)
    (hlen : off + n ≤ x.length)
    (hbytes : ∀ j, j < n →
      (t >>> (8 * (p.group - 1) - 8 * j)) &&& 0xff = x.getD (off + j) 0) :
    _decoding_group p t n [] = (x.drop off).take n := by
  apply List.ext_getElem?
  intro j
  by_cases hj : j < n
  · rw [_decoding_group_nil_getElem p t n j hj, hbytes j hj, List.getElem?_take, if_pos hj,
      List.getElem?_drop, List.getD_eq_getElem?_getD,
      List.getElem?_eq_getElem (by omega : off + j < x.length)]
    rfl
  · rw [List.getElem?_eq_none (by rw [_decoding_group_length]; simp; omega),
      List.getElem?_take, if_neg hj]

theorem _decoding_group_full_block (p : baseN) (x : List Nat) (k : Nat) (hg7 : p.group ≤ 7)
    (hx : ∀ i, x.getD i 0 < 256) (hlen : k * p.group + p.group ≤ x.length) :
    _decoding_group p (bytes_value x (k * p.group) p.group) p.group [] =
      (x.drop (k * p.group)).take p.group := by
  apply _decoding_group_eq_take p x _ _ _ hlen
  intro j hj
  rw [← Nat.mul_sub]
  exact bytes_value_byte x _ _ j hg7 hj hx

theorem _decoding_group_partial_block (p : baseN) (x : List Nat) (off left : Nat)
    (hlg : left ≤ p.group) (hg7 : p.group ≤ 7) (hx : ∀ i, x.getD i 0 < 256)
    (hlen : off + left ≤ x.length) :
    _decoding_group p (bytes_value x off left <<< (8 * (p.group - left))) left [] =
      (x.drop off).take left := by
  apply _decoding_group_eq_take p x _ _ _ hlen
  intro j hj
  have e : 8 * (p.group - 1) - 8 * j = 8 * (p.group - left) + 8 * (left - 1 - j) := by omega
  rw [e, Nat.shiftRight_add, Nat.shiftLeft_shiftRight]
  exact bytes_value_byte x _ _ j (by omega) hj hx

theorem strip_skipped_of_valid (p : baseN) (cs : List Nat) (h : ∀ c ∈ cs, valid_symbol p c) :
    strip_skipped cs = cs := by
  unfold strip_skipped
  rw [List.filter_eq_self]
  intro c hc
  simpa using (h c hc).1

theorem strip_skipped_pads (n : Nat) : strip_skipped (List.replicate n 61) = [] := by
  unfold strip_skipped
  rw [List.filter_eq_nil_iff]
  intro c hc
  have := List.eq_of_mem_replicate hc
  simp [this]

theorem group_symbols_valid (p : baseN) (hb7 : p.bitslen ≤ 7)
    (hmask : p.mask = 2 ^ p.bitslen - 1)
    (htab : ∀ i, i < 2 ^ p.bitslen → dec_at p (enc_at p i) = i)
    (hfree : ∀ i, i < 2 ^ p.bitslen →
      enc_at p i ≠ 13 ∧ enc_at p i ≠ 10 ∧ enc_at p i ≠ 61) (d : List Nat) (g : Nat) :
    ∀ c ∈ group_symbols p d g, valid_symbol p c :=
  _encoding_group_symbols_valid p hb7 hmask htab hfree _ _ _

theorem block_symbols_valid (p : baseN) (hb7 : p.bitslen ≤ 7)
    (hmask : p.mask = 2 ^ p.bitslen - 1)
    (htab : ∀ i, i < 2 ^ p.bitslen → dec_at p (enc_at p i) = i)
    (hfree : ∀ i, i < 2 ^ p.bitslen →
      enc_at p i ≠ 13 ∧ enc_at p i ≠ 10 ∧ enc_at p i ≠ 61) (d : List Nat) (n : Nat) :
    ∀ c ∈ block_symbols p d n, valid_symbol p c := by
  induction n with
  | zero => intro c hc; simp [block_symbols] at hc
  | succ m ih =>
    intro c hc
    simp only [block_symbols, List.mem_append] at hc
    rcases hc with hc | hc
    · exact ih c hc
    · exact group_symbols_valid p hb7 hmask htab hfree _ _ c hc

/-- The decoder reads back the full blocks the encoder wrote. -/
theorem baseN_decoding_loop_blocks (p : baseN) (x : List Nat)
    (hg1 : 1 ≤ p.group) (hg7 : p.group ≤ 7) (hb1 : 1 ≤ p.bitslen) (hb7 : p.bitslen ≤ 7)
    (hdiv : p.bitslen ∣ p.group * 8) (he : p.egroup = p.group * 8 / p.bitslen)
    (hmask : p.mask = 2 ^ p.bitslen - 1)
    (htab : ∀ i, i < 2 ^ p.bitslen → dec_at p (enc_at p i) = i)
    (hfree : ∀ i, i < 2 ^ p.bitslen →
      enc_at p i ≠ 13 ∧ enc_at p i ≠ 10 ∧ enc_at p i ≠ 61)
    (hx : ∀ i, x.getD i 0 < 256) (n : Nat) :
    ∀ (rest buf : List Nat), n * p.group ≤ x.length →
      baseN_decoding_loop p (block_symbols p x n ++ rest) 0 0 buf =
        baseN_decoding_loop p rest 0 0 (buf ++ x.take (n * p.group)) := by
  have hepos : 0 < p.egroup := by
    rw [he]
    exact Nat.div_pos (by omega) (by omega)
  induction n with
  | zero => intro rest buf _; simp [block_symbols]
  | succ m ih =>
    intro rest buf hlen
    have hlen' : m * p.group + p.group ≤ x.length := by
      rw [Nat.add_mul] at hlen; omega
    have hgl := group_symbols_length p (x.drop (m * p.group)) p.group hb1
    rw [ceil_div_exact _ _ (by omega) hdiv, ← he] at hgl
    have hne : group_symbols p (x.drop (m * p.group)) p.group ≠ [] := by
      intro h
      rw [h] at hgl
      simp at hgl
      omega
    simp only [block_symbols, List.append_assoc]
    rw [ih _ buf (by omega),
      baseN_decoding_loop_group p _ rest 0 0 _
        (group_symbols_valid p hb7 hmask htab hfree _ _) hne (by omega),
      accumulate_full_block p x m hg7 hb1 hb7 hdiv he hmask htab hx,
      _decoding_group_eq_append, _decoding_group_full_block p x m hg7 hx hlen',
      List.append_assoc]
    congr 2
    have e : (m + 1) * p.group = m * p.group + p.group := by ring
    rw [e, List.take_add]

theorem drop_all_zero_iff (x : List Nat) (off left : Nat) (h : off + left = x.length) :
    (∀ y ∈ x.drop off, y = 0) ↔ ∀ i, i < left → x.getD (off + i) 0 = 0 := by
  constructor
  · intro hy i hi
    have hlt : off + i < x.length := by omega
    rw [List.getD_eq_getElem?_getD, List.getElem?_eq_getElem hlt]
    apply hy
    rw [List.mem_iff_getElem?]
    exact ⟨i, by rw [List.getElem?_drop, List.getElem?_eq_getElem hlt]; rfl⟩
  · intro hi y hy
    rw [List.mem_iff_getElem?] at hy
    obtain ⟨i, hiy⟩ := hy
    rw [List.getElem?_drop] at hiy
    have hlt : off + i < x.length := by
      by_contra hge
      rw [List.getElem?_eq_none (by omega)] at hiy
      exact absurd hiy (by simp)
    have := hi i (by omega)
    rw [List.getD_eq_getElem?_getD, hiy] at this
    exact this

theorem strip_skipped_encoding (p : baseN) (x : List Nat) (hb7 : p.bitslen ≤ 7)
    (hmask : p.mask = 2 ^ p.bitslen - 1)
    (htab : ∀ i, i < 2 ^ p.bitslen → dec_at p (enc_at p i) = i)
    (hfree : ∀ i, i < 2 ^ p.bitslen →
      enc_at p i ≠ 13 ∧ enc_at p i ≠ 10 ∧ enc_at p i ≠ 61) :
    strip_skipped (baseN_encoding p (some x) x.length) = alphabet_symbols p x x.length := by
  rw [baseN_encoding_eq, strip_skipped_emits, symbol_stream_split, strip_skipped_append,
    strip_skipped_pads, List.append_nil]
  have hnil : strip_skipped [] = [] := rfl
  rw [hnil, List.nil_append]
  apply strip_skipped_of_valid p
  intro c hc
  unfold alphabet_symbols at hc
  rw [List.mem_append] at hc
  rcases hc with hc | hc
  · exact block_symbols_valid p hb7 hmask htab hfree x _ c hc
  · by_cases h : x.length % p.group = 0
    · simp [h] at hc
    · rw [if_neg h] at hc
      exact group_symbols_valid p hb7 hmask htab hfree _ _ c hc

/-- What the decoder loop leaves after reading an encoding: the bytes of the full
blocks, and the symbols of the partial block in the accumulator. -/
theorem baseN_decoding_loop_encoding (p : baseN) (x : List Nat)
    (hg1 : 1 ≤ p.group) (hg7 : p.group ≤ 7) (hb1 : 1 ≤ p.bitslen) (hb7 : p.bitslen ≤ 7)
    (hdiv : p.bitslen ∣ p.group * 8) (he : p.egroup = p.group * 8 / p.bitslen)
    (hmask : p.mask = 2 ^ p.bitslen - 1)
    (htab : ∀ i, i < 2 ^ p.bitslen → dec_at p (enc_at p i) = i)
    (hfree : ∀ i, i < 2 ^ p.bitslen →
      enc_at p i ≠ 13 ∧ enc_at p i ≠ 10 ∧ enc_at p i ≠ 61)
    (hx : ∀ i, x.getD i 0 < 256) :
    baseN_decoding_loop p (alphabet_symbols p x x.length) 0 0 [] =
      if x.length % p.group = 0 then some (0, 0, x)
      else
        some ((x.length % p.group * 8 + p.bitslen - 1) / p.bitslen,
          bytes_value x (x.length - x.length % p.group) (x.length % p.group) <<<
            (8 * (p.group - x.length % p.group)),
          x.take (x.length - x.length % p.group)) := by
  have hdm := Nat.div_add_mod x.length p.group
  have hmod := Nat.mod_lt x.length (by omega : 0 < p.group)
  have hng : x.length / p.group * p.group = x.length - x.length % p.group := by
    rw [Nat.mul_comm]; omega
  have hmul : p.bitslen * p.egroup = p.group * 8 := by
    rw [he]
    exact Nat.mul_div_cancel' hdiv
  unfold alphabet_symbols
  rw [baseN_decoding_loop_blocks p x hg1 hg7 hb1 hb7 hdiv he hmask htab hfree hx _ _ []
    (by rw [hng]; omega), List.nil_append, hng]
  by_cases h : x.length % p.group = 0
  · rw [if_pos h, if_pos h, h, Nat.sub_zero, List.take_length]
    rfl
  · rw [if_neg h, if_neg h]
    have hgl := group_symbols_length p (x.drop (x.length - x.length % p.group))
      (x.length % p.group) hb1
    obtain ⟨hlo, hhi⟩ := ceil_div_bounds (x.length % p.group * 8) p.bitslen (by omega)
    have hnlt : (x.length % p.group * 8 + p.bitslen - 1) / p.bitslen < p.egroup := by
      apply Nat.lt_of_mul_lt_mul_right (a := p.bitslen)
      rw [Nat.mul_comm p.egroup]
      omega
    have hpart := baseN_decoding_loop_partial p
      (group_symbols p (x.drop (x.length - x.length % p.group)) (x.length % p.group)) [] 0 0
      (x.take (x.length - x.length % p.group))
      (group_symbols_valid p hb7 hmask htab hfree _ _) (by rw [hgl]; omega)
    rw [List.append_nil] at hpart
    rw [hpart, hgl, Nat.zero_add,
      accumulate_partial_block p x _ _ (by omega) hmod hg7 hb1 hb7 hdiv he hmask htab hx]
    rfl

theorem getD_lt_of_bytes (x : List Nat) (hx : ∀ y ∈ x, y < 256) : ∀ i, x.getD i 0 < 256 := by
  intro i
  by_cases h : i < x.length
  · rw [List.getD_eq_getElem?_getD, List.getElem?_eq_getElem h]
    exact hx _ (List.getElem_mem h)
  · rw [List.getD_eq_default _ _ (by omega)]
    norm_num

/-- Decoding an encoding: the whole input when there is no partial block or its
value is non-zero, the input without the partial block when its value is zero. -/
theorem baseN_decoding_encoding (p : baseN) (x : List Nat)
    (hg1 : 1 ≤ p.group) (hg7 : p.group ≤ 7) (hb1 : 1 ≤ p.bitslen) (hb7 : p.bitslen ≤ 7)
    (hdiv : p.bitslen ∣ p.group * 8) (he : p.egroup = p.group * 8 / p.bitslen)
    (hmask : p.mask = 2 ^ p.bitslen - 1)
    (htab : ∀ i, i < 2 ^ p.bitslen → dec_at p (enc_at p i) = i)
    (hfree : ∀ i, i < 2 ^ p.bitslen →
      enc_at p i ≠ 13 ∧ enc_at p i ≠ 10 ∧ enc_at p i ≠ 61)
    (hx : ∀ y ∈ x, y < 256) :
    baseN_decoding p (some (baseN_encoding p (some x) x.length))
        (baseN_encoding p (some x) x.length).length =
      if x.length % p.group = 0 ∨
          bytes_value x (x.length - x.length % p.group) (x.length % p.group) ≠ 0 then some x
      else some (x.take (x.length - x.length % p.group)) := by
  have hxd := getD_lt_of_bytes x hx
  have hmod := Nat.mod_lt x.length (by omega : 0 < p.group)
  have hle := Nat.mod_le x.length p.group
  rw [baseN_decoding_eq, baseN_decoding_loop_strip,
    strip_skipped_encoding p x hb7 hmask htab hfree,
    baseN_decoding_loop_encoding p x hg1 hg7 hb1 hb7 hdiv he hmask htab hfree hxd]
  by_cases h : x.length % p.group = 0
  · rw [if_pos h, if_pos (Or.inl h)]
    simp [baseN_decoding_flush]
  · rw [if_neg h]
    simp only [baseN_decoding_flush]
    obtain ⟨hlo, hhi⟩ := ceil_div_bounds (x.length % p.group * 8) p.bitslen (by omega)
    have hn1 : 0 < (x.length % p.group * 8 + p.bitslen - 1) / p.bitslen := by
      apply Nat.pos_of_ne_zero
      intro h0
      rw [h0] at hlo
      omega
    have hflush : (x.length % p.group * 8 + p.bitslen - 1) / p.bitslen * p.bitslen / 8 =
        x.length % p.group := by omega
    by_cases hW : bytes_value x (x.length - x.length % p.group) (x.length % p.group) = 0
    · rw [hW, Nat.zero_shiftLeft, if_neg (by simp), if_neg (by simp [h, hW])]
    · have hacc : bytes_value x (x.length - x.length % p.group) (x.length % p.group) <<<
          (8 * (p.group - x.length % p.group)) ≠ 0 := by
        rw [Nat.shiftLeft_eq]
        exact Nat.mul_ne_zero hW (Nat.ne_of_gt (Nat.two_pow_pos _))
      rw [if_pos ⟨hn1, hacc⟩, if_pos (Or.inr hW), hflush, _decoding_group_eq_append,
        _decoding_group_partial_block p x _ _ (by omega) hg7 hxd (by omega)]
      congr 1
      have hdl : (x.drop (x.length - x.length % p.group)).length ≤ x.length % p.group := by
        rw [List.length_drop]; omega
      rw [List.take_of_length_le hdl, List.take_append_drop]

/-! ## The claims -/

set_option maxRecDepth 100000 in
/-- C1, evaluated at the failing input: the byte sequence `[0x00]` with the base64
configuration, which `baseN_init` builds and which meets the exact-division
invariant (tables inverse to each other, alphabet free of CR, LF and `=`). The
encoder gives `AA==`; the decoder succeeds on it and returns no byte, not
`[0x00]`. -/
theorem baseN_roundtrip_drops_zero_byte :
    baseN_init 3 6 (some base64_entable) (some base64_detable) 0x3F = some (base64 true true) ∧
      (6 ∣ 3 * 8 ∧ (0x3F : Nat) = 2 ^ 6 - 1 ∧
        (∀ i < 64, dec_at (base64 true true) (enc_at (base64 true true) i) = i) ∧
        (∀ c < 256, c ∉ base64_entable → dec_at (base64 true true) c = 0xff) ∧
        13 ∉ base64_entable ∧ 10 ∉ base64_entable ∧ 61 ∉ base64_entable) ∧
      baseN_encoding (base64 true true) (some [0]) 1 = [65, 65, 61, 61] ∧
      baseN_decoding (base64 true true) (some (baseN_encoding (base64 true true) (some [0]) 1))
        (baseN_encoding (base64 true true) (some [0]) 1).length = some [] := by
  decide
/-- C2 as amended. Encode length exactness: for an exact-division configuration
(`group >= 1`, `1 <= bitslen <= 7`, `bitslen` divides `group * 8`,
`egroup = group * 8 / bitslen`) and an input of `datalen` bytes, when padding is
enabled or `datalen` is a multiple of `group`, and chunking is disabled or the
symbol count `ceil(datalen / group) * egroup` is at most 150, the byte count
`baseN_encoding` reports equals `baseN_encoding_length`. -/
theorem baseN_encoding_length_exact (p : baseN) (d : List Nat)
    (hg : 1 ≤ p.group) (hb1 : 1 ≤ p.bitslen) (hb7 : p.bitslen ≤ 7)
    (hdiv : p.bitslen ∣ p.group * 8) (he : p.egroup = p.group * 8 / p.bitslen)
    (hpad : p.padding = true ∨ d.length % p.group = 0)
    (hch : p.chunkled = false ∨ (d.length + p.group - 1) / p.group * p.egroup ≤ 150) :
    (baseN_encoding p (some d) d.length).length = baseN_encoding_length p d.length := by
  have hN := symbol_stream_length_padded p d d.length hg hb1 hb7 hdiv he hpad
  rw [baseN_encoding_eq]
  unfold baseN_encoding_length
  by_cases h0 : d.length = 0
  · rw [if_pos h0]
    have hd : d = [] := List.length_eq_zero.mp h0
    subst hd
    simp [symbol_stream, left_symbols, block_symbols, emits_nil]
  · rw [if_neg h0]
    simp only []
    cases hc : p.chunkled with
    | false =>
      rw [emits_unchunked p hc]
      simp [hN]
    | true =>
      rw [emits_length_chunked_nil p hc, hN]
      simp only [if_true]
      have hle : (d.length + p.group - 1) / p.group * p.egroup ≤ 150 := by
        rcases hch with h | h
        · rw [hc] at h; exact absurd h (by simp)
        · exact h
      unfold chunked_length _chunklen
      omega

/-- Witness of C2 as amended: `Ma` with base64, chunking and padding enabled. -/
theorem baseN_encoding_length_exact_witness :
    (baseN_encoding (base64 true true) (some [77, 97]) [77, 97].length).length =
      baseN_encoding_length (base64 true true) [77, 97].length :=
  baseN_encoding_length_exact (base64 true true) [77, 97]
    (by decide) (by decide) (by decide) (by decide) (by decide) (by decide) (by decide)

/-- Counterexample to C2 as stated: with padding disabled the one byte `M` gives two
characters while the estimator returns four. -/
theorem baseN_encoding_length_exact_fails :
    (baseN_encoding (base64 false false) (some [77]) 1).length ≠
        baseN_encoding_length (base64 false false) 1 ∧
      (baseN_encoding (base64 false false) (some [77]) 1).length = 2 ∧
      baseN_encoding_length (base64 false false) 1 = 4 := by
  decide

set_option maxRecDepth 100000 in
/-- C3, evaluated at the failing input: 114 zero bytes with base64, chunking and
padding enabled. The estimator, the capacity `baseN_work` gives the result buffer,
returns 154; the encoder's final write index is 156. -/
theorem baseN_encoding_overruns_estimate :
    baseN_encoding_length (base64 true true) 114 = 154 ∧
      (baseN_encoding (base64 true true) (some (List.replicate 114 0)) 114).length = 156 := by
  decide

/-- C4. Decode length bound: for a configuration with `group >= 1`,
`1 <= bitslen <= 7` and `egroup = group * 8 / bitslen`, whenever `baseN_decoding`
succeeds on a non-empty input the number of bytes it reports is at most
`baseN_decoding_length`, which is `ceil(datalen / egroup) * group`. The output is
only ever appended to, so every index written, the flush included, is below the
bound. -/
theorem baseN_decoding_length_bound (p : baseN) (s out : List Nat)
    (hg : 1 ≤ p.group) (hb1 : 1 ≤ p.bitslen) (hb7 : p.bitslen ≤ 7)
    (he : p.egroup = p.group * 8 / p.bitslen) (hs : 0 < s.length)
    (h : baseN_decoding p (some s) s.length = some out) :
    out.length ≤ baseN_decoding_length p s.length ∧
      baseN_decoding_length p s.length = (s.length + p.egroup - 1) / p.egroup * p.group := by
  have hlen : baseN_decoding_length p s.length =
      (s.length + p.egroup - 1) / p.egroup * p.group := by
    unfold baseN_decoding_length
    rw [if_neg (by omega)]
  refine ⟨?_, hlen⟩
  rw [hlen]
  have hepos : 0 < p.egroup := by
    rw [he]
    exact Nat.div_pos (by omega) (by omega)
  have hmul : p.egroup * p.bitslen ≤ p.group * 8 := by
    rw [he]
    exact Nat.div_mul_le_self _ _
  rw [baseN_decoding_eq] at h
  cases hl : baseN_decoding_loop p s 0 0 [] with
  | none => rw [hl] at h; simp [baseN_decoding_flush] at h
  | some r =>
    obtain ⟨k1, t1, buf1⟩ := r
    obtain ⟨hk1, g, hbuf, hcount⟩ := baseN_decoding_loop_count p hepos s 0 0 [] k1 t1 buf1 hepos hl
    simp only [List.length_nil, Nat.zero_add] at hbuf hcount
    rw [hl] at h
    simp only [baseN_decoding_flush] at h
    by_cases hf : 0 < k1 ∧ t1 ≠ 0
    · rw [if_pos hf] at h
      have hout : out = _decoding_group p t1 (k1 * p.bitslen / 8) buf1 := by
        simpa using h.symm
      rw [hout, _decoding_group_length, hbuf]
      have h1 : (k1 + 1) * p.bitslen ≤ p.egroup * p.bitslen :=
        Nat.mul_le_mul_right _ (by omega)
      have h2 : (k1 + 1) * p.bitslen = k1 * p.bitslen + p.bitslen := by ring
      have h3 : k1 * p.bitslen / 8 < p.group := by
        rw [Nat.div_lt_iff_lt_mul (by omega)]
        omega
      have h4 : g + 1 ≤ (s.length + p.egroup - 1) / p.egroup := by
        rw [Nat.le_div_iff_mul_le hepos]
        have : (g + 1) * p.egroup = g * p.egroup + p.egroup := by ring
        omega
      calc g * p.group + k1 * p.bitslen / 8 ≤ g * p.group + p.group := by omega
        _ = (g + 1) * p.group := by ring
        _ ≤ (s.length + p.egroup - 1) / p.egroup * p.group := Nat.mul_le_mul_right _ h4
    · rw [if_neg hf] at h
      have hout : out = buf1 := by simpa using h.symm
      rw [hout, hbuf]
      have h4 : g ≤ (s.length + p.egroup - 1) / p.egroup := by
        rw [Nat.le_div_iff_mul_le hepos]
        omega
      exact Nat.mul_le_mul_right _ h4

/-- Witness of C4: the base64 text `TQ==` decodes to one byte, within the bound of
three. -/
theorem baseN_decoding_length_bound_witness :
    [77].length ≤ baseN_decoding_length (base64 true true) [84, 81, 61, 61].length ∧
      baseN_decoding_length (base64 true true) [84, 81, 61, 61].length =
        ([84, 81, 61, 61].length + (base64 true true).egroup - 1) /
          (base64 true true).egroup * (base64 true true).group :=
  baseN_decoding_length_bound (base64 true true) [84, 81, 61, 61] [77]
    (by decide) (by decide) (by decide) (by decide) (by decide) (by decide)

/-- C5. Invalid character rejection: `baseN_decoding` returns `FALSE` exactly
when the input holds a character that is not CR, LF or `=` and whose `detable`
entry is `0xff`; for a non-empty input and a configuration with `group >= 1` and
`egroup >= 1`, `baseN_work` returns `CODECInvalidInput` in exactly the same case.
CR, LF and `=` never fail, whatever `detable` holds for them. -/
theorem baseN_decoding_rejects_iff (p : baseN) (s : List Nat) :
    (baseN_decoding p (some s) s.length = none ↔
        ∃ c ∈ s, ¬ (c = 13 ∨ c = 10 ∨ c = 61) ∧ dec_at p c = 0xff) ∧
      (0 < p.group → 0 < p.egroup → s ≠ [] →
        ((baseN_work p CODECMethod.CODECDecoding (some s) s.length).1 =
            CODECode.CODECInvalidInput ↔
          ∃ c ∈ s, ¬ (c = 13 ∨ c = 10 ∨ c = 61) ∧ dec_at p c = 0xff)) := by
  have h1 : baseN_decoding p (some s) s.length = none ↔
      ∃ c ∈ s, ¬ (c = 13 ∨ c = 10 ∨ c = 61) ∧ dec_at p c = 0xff := by
    rw [baseN_decoding_eq, baseN_decoding_flush_none_iff, baseN_decoding_loop_none_iff]
  refine ⟨h1, ?_⟩
  intro hg he hs
  rw [← h1]
  have hpos : 0 < s.length := List.length_pos.mpr hs
  have hlen : baseN_decoding_length p s.length ≠ 0 := by
    unfold baseN_decoding_length
    rw [if_neg (by omega)]
    have : 1 ≤ (s.length + p.egroup - 1) / p.egroup := by
      rw [Nat.le_div_iff_mul_le he]
      omega
    exact Nat.ne_of_gt (Nat.mul_pos (by omega) hg)
  unfold baseN_work
  simp only [if_neg hlen]
  cases hd : baseN_decoding p (some s) s.length with
  | none => simp
  | some out => simp

/-- Witness of C5: `TW!u` is rejected with the base64 tables. -/
theorem baseN_decoding_rejects_iff_witness :
    (baseN_work (base64 true true) CODECMethod.CODECDecoding (some [84, 87, 33, 117])
      [84, 87, 33, 117].length).1 = CODECode.CODECInvalidInput :=
  ((baseN_decoding_rejects_iff (base64 true true) [84, 87, 33, 117]).2
    (by decide) (by decide) (by decide)).mpr ⟨33, by decide, by decide, by decide⟩

/-- C6. Skip-character tolerance: two inputs that agree once every CR, LF and `=`
is deleted get the same outcome from `baseN_decoding`: the same success flag and,
on success, the same bytes. -/
theorem baseN_decoding_skip_tolerant (p : baseN) (s s' : List Nat)
    (h : strip_skipped s = strip_skipped s') :
    baseN_decoding p (some s) s.length = baseN_decoding p (some s') s'.length :=
  baseN_decoding_congr_strip p s s' h

/-- Witness of C6: `TWFu` and `T`, CR, LF, `W=Fu=` with the base64 tables. -/
theorem baseN_decoding_skip_tolerant_witness :
    baseN_decoding (base64 true true) (some [84, 87, 70, 117]) [84, 87, 70, 117].length =
      baseN_decoding (base64 true true) (some [84, 13, 10, 87, 61, 70, 117, 61])
        [84, 13, 10, 87, 61, 70, 117, 61].length :=
  baseN_decoding_skip_tolerant (base64 true true) [84, 87, 70, 117]
    [84, 13, 10, 87, 61, 70, 117, 61] (by decide)
set_option maxRecDepth 100000 in
/-- C7, evaluated at the failing input: 114 zero bytes with base64, chunking and
padding enabled, give 152 symbols. The output is 76 symbols, CR LF, 74 symbols,
CR LF, 2 symbols: the second line break follows the 150th symbol, not the
152nd. -/
theorem baseN_encoding_second_break_early :
    baseN_encoding (base64 true true) (some (List.replicate 114 0)) 114 =
      List.replicate 76 65 ++ [13, 10] ++ List.replicate 74 65 ++ [13, 10] ++
        List.replicate 2 65 := by
  decide

/-- C8. Chunking is transparent to decoding: for every configuration and every
byte sequence, decoding the output of the encoder with chunking enabled gives the
same result (success flag and bytes) as decoding its output with chunking
disabled. -/
theorem chunking_transparent_to_decoding (p : baseN) (x : List Nat) :
    baseN_decoding { p with chunkled := true }
        (some (baseN_encoding { p with chunkled := true } (some x) x.length))
        (baseN_encoding { p with chunkled := true } (some x) x.length).length =
      baseN_decoding { p with chunkled := false }
        (some (baseN_encoding { p with chunkled := false } (some x) x.length))
        (baseN_encoding { p with chunkled := false } (some x) x.length).length := by
  rw [baseN_decoding_chunkled p true, baseN_decoding_chunkled p false]
  apply baseN_decoding_congr_strip
  rw [baseN_encoding_eq, baseN_encoding_eq, strip_skipped_emits, strip_skipped_emits,
    symbol_stream_chunkled p true, symbol_stream_chunkled p false]
/-- C9. Padding count: for an exact-division configuration the output of
`baseN_encoding` is the alphabet symbols (table reads, `egroup` per full block and
`ceil(left * 8 / bitslen)` for the partial block, `left = datalen mod group`)
followed by `n` pad characters `=`, line breaks apart, where
`n = egroup - ceil(left * 8 / bitslen)` when padding is enabled and `left != 0`,
and `n = 0` when `left = 0` or padding is disabled. When `=` is not in the
alphabet, `n` is the number of `=` in the output. -/
theorem baseN_encoding_padding_count (p : baseN) (x : List Nat)
    (hb1 : 1 ≤ p.bitslen) (hdiv : p.bitslen ∣ p.group * 8)
    (he : p.egroup = p.group * 8 / p.bitslen) :
    (∃ syms : List Nat,
      (∀ c ∈ syms, ∃ i, c = enc_at p i) ∧
      syms.length = x.length / p.group * p.egroup +
        (x.length % p.group * 8 + p.bitslen - 1) / p.bitslen ∧
      baseN_encoding p (some x) x.length = emits p []
        (syms ++ List.replicate (if p.padding = true ∧ x.length % p.group ≠ 0 then
          p.egroup - (x.length % p.group * 8 + p.bitslen - 1) / p.bitslen else 0) 61)) ∧
    (61 ∉ p.entable →
      List.count 61 (baseN_encoding p (some x) x.length) =
        if p.padding = true ∧ x.length % p.group ≠ 0 then
          p.egroup - (x.length % p.group * 8 + p.bitslen - 1) / p.bitslen else 0) := by
  constructor
  · refine ⟨alphabet_symbols p x x.length, alphabet_symbols_table p x x.length,
      alphabet_symbols_length p x x.length hb1 hdiv he, ?_⟩
    rw [baseN_encoding_eq, symbol_stream_split]
  · intro h61
    rw [baseN_encoding_eq, symbol_stream_split,
      count_emits p 61 (by decide) (by decide), List.count_append,
      count_alphabet_symbols p x x.length h61, List.count_replicate]
    simp

/-- Witness of C9: `M` with base64, padding enabled, gives `TQ==` with two pad
characters. -/
theorem baseN_encoding_padding_count_witness :
    List.count 61 (baseN_encoding (base64 true true) (some [77]) [77].length) =
      if (base64 true true).padding = true ∧ [77].length % (base64 true true).group ≠ 0 then
        (base64 true true).egroup -
          ([77].length % (base64 true true).group * 8 + (base64 true true).bitslen - 1) /
            (base64 true true).bitslen
      else 0 :=
  (baseN_encoding_padding_count (base64 true true) [77] (by decide) (by decide) (by decide)).2
    (by decide)
/-- C10. Encoder, full blocks: for an exact-division configuration with
`group <= 7` and an input whose length is a multiple of `group`, the output of
`baseN_encoding` is its output with chunking disabled with line breaks inserted;
that symbol stream holds exactly `egroup` characters per block and its character
number `b * egroup + j` (`j < egroup`) is
`entable[(V_b >> (8 * group - (j + 1) * bitslen)) & mask]`, `V_b` being block `b`
read as a big-endian unsigned integer. -/
theorem baseN_encoding_full_blocks (p : baseN) (x : List Nat)
    (hg1 : 1 ≤ p.group) (hg7 : p.group ≤ 7) (hb1 : 1 ≤ p.bitslen)
    (hdiv : p.bitslen ∣ p.group * 8) (he : p.egroup = p.group * 8 / p.bitslen)
    (hx : x.length % p.group = 0) :
    baseN_encoding p (some x) x.length =
        emits p [] (baseN_encoding { p with chunkled := false } (some x) x.length) ∧
      (baseN_encoding { p with chunkled := false } (some x) x.length).length =
        x.length / p.group * p.egroup ∧
      ∀ b j : Nat, b < x.length / p.group → j < p.egroup →
        (baseN_encoding { p with chunkled := false } (some x) x.length)[b * p.egroup + j]? =
          some (enc_at p
            ((block_value x b p.group >>> (8 * p.group - (j + 1) * p.bitslen)) &&& p.mask)) := by
  have hs : symbol_stream p x x.length = block_symbols p x (x.length / p.group) := by
    unfold symbol_stream left_symbols
    rw [if_pos hx, List.append_nil]
  rw [baseN_encoding_unchunked, baseN_encoding_eq, hs]
  refine ⟨rfl, ?_, ?_⟩
  · rw [block_symbols_length p x hb1, ceil_div_exact _ _ (by omega) hdiv, ← he]
  · intro b j hb hj
    rw [block_symbols_getElem p x hb1 hdiv he _ b j hb hj,
      group_symbols_getElem p x b j hg1 hg7 hb1 hdiv he hj]

/-- Witness of C10: `Man` (4D 61 6E) with the base64 configuration gives `TWFu`;
the character at position 1 is `W`. -/
theorem baseN_encoding_full_blocks_witness :
    baseN_encoding (base64 true true) (some [0x4D, 0x61, 0x6E]) 3 = [84, 87, 70, 117] ∧
      (baseN_encoding { base64 true true with chunkled := false } (some [0x4D, 0x61, 0x6E])
        [0x4D, 0x61, 0x6E].length)[0 * (base64 true true).egroup + 1]? =
        some (enc_at (base64 true true)
          ((block_value [0x4D, 0x61, 0x6E] 0 (base64 true true).group >>>
            (8 * (base64 true true).group - (1 + 1) * (base64 true true).bitslen)) &&&
              (base64 true true).mask)) :=
  ⟨by decide,
    (baseN_encoding_full_blocks (base64 true true) [0x4D, 0x61, 0x6E]
      (by decide) (by decide) (by decide) (by decide) (by decide) (by decide)).2.2 0 1
      (by decide) (by decide)⟩

/-- C11 as amended. Encoder, trailing partial block: for an exact-division
configuration and an input with `left = datalen mod group != 0` and `left <= 7`
(the partial block fits the 64-bit work word), the output of `baseN_encoding` is
its output with chunking disabled with line breaks inserted; in that stream the
symbols of the full blocks are followed by exactly `n = ceil(left * 8 / bitslen)`
alphabet characters, the `j`-th being
`entable[((W << (n * bitslen - 8 * left)) >> ((n - 1 - j) * bitslen)) & mask]` with
`W` the big-endian value of the last `left` bytes, and after them come only pad
characters (`egroup - n` when padding is enabled, none otherwise). -/
theorem baseN_encoding_partial_block (p : baseN) (x : List Nat)
    (hb1 : 1 ≤ p.bitslen) (hb7 : p.bitslen ≤ 7)
    (hdiv : p.bitslen ∣ p.group * 8) (he : p.egroup = p.group * 8 / p.bitslen)
    (hleft : x.length % p.group ≠ 0) (h7 : x.length % p.group ≤ 7) :
    baseN_encoding p (some x) x.length =
        emits p [] (baseN_encoding { p with chunkled := false } (some x) x.length) ∧
      (baseN_encoding { p with chunkled := false } (some x) x.length).length =
        x.length / p.group * p.egroup +
          (x.length % p.group * 8 + p.bitslen - 1) / p.bitslen +
          (if p.padding = true then
            p.egroup - (x.length % p.group * 8 + p.bitslen - 1) / p.bitslen else 0) ∧
      (∀ j : Nat, j < (x.length % p.group * 8 + p.bitslen - 1) / p.bitslen →
        (baseN_encoding { p with chunkled := false } (some x) x.length)[
            x.length / p.group * p.egroup + j]? =
          some (enc_at p
            (((bytes_value x (x.length - x.length % p.group) (x.length % p.group) <<<
                ((x.length % p.group * 8 + p.bitslen - 1) / p.bitslen * p.bitslen -
                  8 * (x.length % p.group))) >>>
              (((x.length % p.group * 8 + p.bitslen - 1) / p.bitslen - 1 - j) * p.bitslen)) &&&
              p.mask))) ∧
      ∀ j : Nat,
        x.length / p.group * p.egroup +
            (x.length % p.group * 8 + p.bitslen - 1) / p.bitslen ≤ j →
        j < (baseN_encoding { p with chunkled := false } (some x) x.length).length →
        (baseN_encoding { p with chunkled := false } (some x) x.length)[j]? = some 61 := by
  have hblk : (block_symbols p x (x.length / p.group)).length =
      x.length / p.group * p.egroup := by
    rw [block_symbols_length p x hb1, ceil_div_exact _ _ (by omega) hdiv, ← he]
  have hgrp := group_symbols_length p (x.drop (x.length - x.length % p.group))
    (x.length % p.group) hb1
  have hS : symbol_stream p x x.length =
      block_symbols p x (x.length / p.group) ++
        (group_symbols p (x.drop (x.length - x.length % p.group)) (x.length % p.group) ++
          List.replicate (if p.padding = true then
            p.egroup - (x.length % p.group * 8 + p.bitslen - 1) / p.bitslen else 0) 61) := by
    unfold symbol_stream left_symbols pad_count
    rw [if_neg hleft]
  rw [baseN_encoding_unchunked, baseN_encoding_eq]
  refine ⟨rfl, ?_, ?_, ?_⟩
  · rw [hS]
    simp only [List.length_append, List.length_replicate, hblk, hgrp]
    omega
  · intro j hj
    rw [hS, List.getElem?_append_right (by rw [hblk]; omega), hblk, Nat.add_sub_cancel_left,
      List.getElem?_append_left (by rw [hgrp]; exact hj)]
    exact partial_symbols_getElem p x _ _ j hb1 hb7 h7 hj
  · intro j hlo hhi
    rw [hS] at hhi ⊢
    simp only [List.length_append, List.length_replicate, hblk, hgrp] at hhi
    rw [List.getElem?_append_right (by rw [hblk]; omega), hblk,
      List.getElem?_append_right (by rw [hgrp]; omega), hgrp, List.getElem?_replicate,
      if_pos (by omega)]

set_option maxRecDepth 100000 in
/-- Witness of C11 as amended: `Ma` with the base64 configuration gives `TWE=` and
`M` gives `TQ==`; the third character of `TWE=` is the symbol number 2 of the
partial block. -/
theorem baseN_encoding_partial_block_witness :
    baseN_encoding (base64 true true) (some [0x4D, 0x61]) 2 = [84, 87, 69, 61] ∧
      baseN_encoding (base64 true true) (some [0x4D]) 1 = [84, 81, 61, 61] ∧
      (baseN_encoding { base64 true true with chunkled := false } (some [0x4D, 0x61])
          [0x4D, 0x61].length)[[0x4D, 0x61].length / (base64 true true).group *
            (base64 true true).egroup + 2]? =
        some (enc_at (base64 true true)
          (((bytes_value [0x4D, 0x61]
                ([0x4D, 0x61].length - [0x4D, 0x61].length % (base64 true true).group)
                ([0x4D, 0x61].length % (base64 true true).group) <<<
              (([0x4D, 0x61].length % (base64 true true).group * 8 +
                  (base64 true true).bitslen - 1) / (base64 true true).bitslen *
                (base64 true true).bitslen -
                8 * ([0x4D, 0x61].length % (base64 true true).group))) >>>
            ((([0x4D, 0x61].length % (base64 true true).group * 8 +
                (base64 true true).bitslen - 1) / (base64 true true).bitslen - 1 - 2) *
              (base64 true true).bitslen)) &&& (base64 true true).mask)) :=
  ⟨by decide, by decide,
    (baseN_encoding_partial_block (base64 true true) [0x4D, 0x61]
      (by decide) (by decide) (by decide) (by decide) (by decide) (by decide)).2.2.1 2
      (by decide)⟩

set_option maxRecDepth 100000 in
/-- Counterexample to C11 as stated: the exact-division configuration
`group = 9`, `bitslen = 4`, `egroup = 18`, `mask = 0xF` and the eight bytes
FF 00 00 00 00 00 00 00 (`left = 8`, `n = 16`). The store `tmp[8] = data[0]` falls
outside the 64-bit work word, so the encoder gives sixteen times `entable[0]`,
while the formula of the claim gives `entable[15]` for the first symbol. -/
theorem baseN_encoding_partial_block_wide :
    baseN_init 9 4 (some base64_entable) (some base64_detable) 0xF =
        some { wide_group_config with chunkled := true, padding := true } ∧
      (4 ∣ 9 * 8 ∧ wide_group_config.egroup = 9 * 8 / 4 ∧ (0xF : Nat) = 2 ^ 4 - 1 ∧
        [0xFF, 0, 0, 0, 0, 0, 0, 0].length % wide_group_config.group = 8 ∧
        (8 * 8 + 4 - 1) / 4 = 16) ∧
      baseN_encoding wide_group_config (some [0xFF, 0, 0, 0, 0, 0, 0, 0]) 8 =
        List.replicate 16 (enc_at wide_group_config 0) ∧
      enc_at wide_group_config
          (((bytes_value [0xFF, 0, 0, 0, 0, 0, 0, 0] 0 8 <<< (16 * 4 - 8 * 8)) >>>
            ((16 - 1 - 0) * 4)) &&& wide_group_config.mask) =
        enc_at wide_group_config 15 ∧
      enc_at wide_group_config 15 ≠ enc_at wide_group_config 0 := by
  decide

/-- C12. Decoder, full groups: for an exact-division configuration with
`group <= 8` (its mask is `2 ^ bitslen - 1`, or its `detable` holds only symbol
values below `2 ^ bitslen` and the sentinel `0xff`) and an input with no invalid
character whose valid symbols `c_0 ..` number `m * egroup`, `baseN_decoding`
succeeds and writes exactly `m * group` bytes, byte number `w * group + j` being
`(A_w >> (8 * (group - 1 - j))) & 0xff`, where `A_w` is the sum over `i < egroup` of
`(detable[c_{w * egroup + i}] & mask) << ((egroup - 1 - i) * bitslen)`. -/
theorem baseN_decoding_full_groups (p : baseN) (s : List Nat) (m : Nat)
    (hg1 : 1 ≤ p.group) (hg8 : p.group ≤ 8) (hb1 : 1 ≤ p.bitslen) (hb7 : p.bitslen ≤ 7)
    (hdiv : p.bitslen ∣ p.group * 8) (he : p.egroup = p.group * 8 / p.bitslen)
    (hcfg : p.mask = 2 ^ p.bitslen - 1 ∨
      ∀ c, dec_at p c = 0xff ∨ dec_at p c < 2 ^ p.bitslen)
    (hvalid : ∀ c ∈ s, ¬ (c = 13 ∨ c = 10 ∨ c = 61) → dec_at p c ≠ 0xff)
    (hm : (strip_skipped s).length = m * p.egroup) :
    ∃ out : List Nat,
      baseN_decoding p (some s) s.length = some out ∧
      out.length = m * p.group ∧
      ∀ w j : Nat, w < m → j < p.group →
        out[w * p.group + j]? =
          some ((group_value p (strip_skipped s) w >>> (8 * (p.group - 1 - j))) &&& 0xff) := by
  have hepos : 0 < p.egroup := by
    rw [he]
    exact Nat.div_pos (by omega) (by omega)
  have hmul : p.bitslen * p.egroup = p.group * 8 := by
    rw [he]
    exact Nat.mul_div_cancel' hdiv
  have hb64 : p.bitslen * p.egroup ≤ 64 := by omega
  have hv : ∀ c ∈ strip_skipped s, valid_symbol p c := by
    intro c hc
    unfold strip_skipped at hc
    rw [List.mem_filter] at hc
    have hns : ¬ (c = 13 ∨ c = 10 ∨ c = 61) := by simpa using hc.2
    exact ⟨hns, hvalid c hc.1 hns⟩
  have hfit : ∀ c ∈ strip_skipped s, dec_at p c &&& p.mask < 2 ^ p.bitslen := by
    intro c hc
    apply masked_value_fits
    rcases hcfg with hmask | hdet
    · exact Or.inl hmask
    · rcases hdet c with h255 | hlt
      · exact absurd h255 (hv c hc).2
      · exact Or.inr hlt
  refine ⟨decoded_groups p (strip_skipped s) m, ?_, decoded_groups_length p m _, ?_⟩
  · rw [baseN_decoding_eq, baseN_decoding_loop_strip,
      baseN_decoding_loop_groups p hepos m _ [] hv hm]
    simp [baseN_decoding_flush]
  · intro w j hw hj
    have hwlen : (w + 1) * p.egroup ≤ (strip_skipped s).length := by
      rw [hm]
      exact Nat.mul_le_mul_right _ (by omega)
    have htake : (((strip_skipped s).drop (w * p.egroup)).take p.egroup).length = p.egroup := by
      rw [List.length_take, List.length_drop]
      rw [Nat.add_mul] at hwlen
      omega
    have hfitw : ∀ c ∈ ((strip_skipped s).drop (w * p.egroup)).take p.egroup,
        dec_at p c &&& p.mask < 2 ^ p.bitslen :=
      fun c hc => hfit c (List.mem_of_mem_drop (List.mem_of_mem_take hc))
    rw [decoded_groups_getElem p m _ w j hw hj, _decoding_group_nil_getElem p _ _ j hj,
      accumulate_zero_of_fit p hb64 _ hfitw (by omega), htake, Nat.sub_self, Nat.mul_zero,
      Nat.shiftLeft_zero, group_value_eq_horner p _ w hwlen, ← Nat.mul_sub]

set_option maxRecDepth 100000 in
/-- Witness of C12: `TWFu` with the base64 configuration gives 4D 61 6E. -/
theorem baseN_decoding_full_groups_witness :
    baseN_decoding (base64 true true) (some [84, 87, 70, 117]) [84, 87, 70, 117].length =
        some [0x4D, 0x61, 0x6E] ∧
      ∃ out : List Nat,
        baseN_decoding (base64 true true) (some [84, 87, 70, 117]) [84, 87, 70, 117].length =
          some out ∧
        out.length = 1 * (base64 true true).group ∧
        ∀ w j : Nat, w < 1 → j < (base64 true true).group →
          out[w * (base64 true true).group + j]? =
            some ((group_value (base64 true true) (strip_skipped [84, 87, 70, 117]) w >>>
              (8 * ((base64 true true).group - 1 - j))) &&& 0xff) :=
  ⟨by decide,
    baseN_decoding_full_groups (base64 true true) [84, 87, 70, 117] 1
      (by decide) (by decide) (by decide) (by decide) (by decide) (by decide)
      (Or.inl (by decide)) (by decide) (by decide)⟩

/-- C13. Empty input: for a configuration with `group >= 1`, `1 <= bitslen <= 7`
and the `egroup` that `baseN_init` computes, `baseN_work` returns
`CODECEmptyInput`, in either direction, exactly when the input length is zero;
both length estimators return 0 exactly when `datalen = 0`. -/
theorem baseN_work_empty_iff (p : baseN) (method : CODECMethod) (data : Option (List Nat))
    (length : Nat) (hg : 1 ≤ p.group) (hb1 : 1 ≤ p.bitslen) (hb7 : p.bitslen ≤ 7)
    (he : p.egroup = p.group * 8 / p.bitslen) :
    ((baseN_work p method data length).1 = CODECode.CODECEmptyInput ↔ length = 0) ∧
      (baseN_encoding_length p length = 0 ↔ length = 0) ∧
      (baseN_decoding_length p length = 0 ↔ length = 0) := by
  have hepos : 0 < p.egroup := by
    rw [he]
    exact Nat.div_pos (by omega) (by omega)
  have henc : baseN_encoding_length p length = 0 ↔ length = 0 :=
    baseN_encoding_length_eq_zero_iff p length hg hepos
  have hdec : baseN_decoding_length p length = 0 ↔ length = 0 :=
    baseN_decoding_length_eq_zero_iff p length hg hepos
  refine ⟨?_, henc, hdec⟩
  cases method with
  | CODECEncoding =>
    unfold baseN_work
    simp only []
    by_cases h : baseN_encoding_length p length = 0
    · rw [if_pos h]
      simpa using henc.mp h
    · rw [if_neg h]
      have : length ≠ 0 := fun h0 => h (henc.mpr h0)
      simpa using this
  | CODECDecoding =>
    unfold baseN_work
    simp only []
    by_cases h : baseN_decoding_length p length = 0
    · rw [if_pos h]
      simpa using hdec.mp h
    · rw [if_neg h]
      have : length ≠ 0 := fun h0 => h (hdec.mpr h0)
      cases baseN_decoding p data length <;> simpa using this

/-- Witness of C13: decoding a non-empty text with the base64 configuration is
not reported as empty. -/
theorem baseN_work_empty_iff_witness :
    ((baseN_work (base64 true true) CODECMethod.CODECDecoding (some [84, 87, 70, 117]) 4).1 =
        CODECode.CODECEmptyInput ↔ 4 = 0) ∧
      (baseN_encoding_length (base64 true true) 4 = 0 ↔ 4 = 0) ∧
      (baseN_decoding_length (base64 true true) 4 = 0 ↔ 4 = 0) :=
  baseN_work_empty_iff (base64 true true) CODECMethod.CODECDecoding (some [84, 87, 70, 117]) 4
    (by decide) (by decide) (by decide) (by decide)

/-- C14 as amended. Absent input: with an absent data pointer `baseN_work` reports
`CODECEmptyInput` exactly when the stated length is zero; with a non-zero stated
length it returns `CODECOk` with a zero-length result, in both directions. -/
theorem baseN_work_absent_input (p : baseN) (method : CODECMethod) (length : Nat)
    (hg : 1 ≤ p.group) (hb1 : 1 ≤ p.bitslen) (hb7 : p.bitslen ≤ 7)
    (he : p.egroup = p.group * 8 / p.bitslen) :
    (length = 0 → baseN_work p method none length = (CODECode.CODECEmptyInput, none)) ∧
      (length ≠ 0 → baseN_work p method none length = (CODECode.CODECOk, some [])) := by
  have hepos : 0 < p.egroup := by
    rw [he]
    exact Nat.div_pos (by omega) (by omega)
  have henc := baseN_encoding_length_eq_zero_iff p length hg hepos
  have hdec := baseN_decoding_length_eq_zero_iff p length hg hepos
  constructor
  · intro h0
    cases method with
    | CODECEncoding => unfold baseN_work; simp only []; rw [if_pos (henc.mpr h0)]
    | CODECDecoding => unfold baseN_work; simp only []; rw [if_pos (hdec.mpr h0)]
  · intro h0
    cases method with
    | CODECEncoding =>
      unfold baseN_work
      simp only []
      rw [if_neg (fun h => h0 (henc.mp h))]
      rfl
    | CODECDecoding =>
      unfold baseN_work
      simp only []
      rw [if_neg (fun h => h0 (hdec.mp h))]
      rfl

/-- Witness of C14 as amended: the base64 configuration, encoding direction,
absent pointer. -/
theorem baseN_work_absent_input_witness :
    (0 = 0 → baseN_work (base64 true true) CODECMethod.CODECEncoding none 0 =
        (CODECode.CODECEmptyInput, none)) ∧
      (0 ≠ 0 → baseN_work (base64 true true) CODECMethod.CODECEncoding none 0 =
        (CODECode.CODECOk, some [])) :=
  baseN_work_absent_input (base64 true true) CODECMethod.CODECEncoding 0
    (by decide) (by decide) (by decide) (by decide)

/-- Counterexample to C14 as stated: an absent pointer with stated length 5 gives
`CODECOk` with a zero-length result in both directions, not `CODECEmptyInput`. -/
theorem baseN_work_absent_input_ok :
    baseN_work (base64 true true) CODECMethod.CODECEncoding none 5 =
        (CODECode.CODECOk, some []) ∧
      baseN_work (base64 true true) CODECMethod.CODECDecoding none 5 =
        (CODECode.CODECOk, some []) := by
  decide

/-- C15 as amended. Construction validation: `baseN_init` passes its checks and
produces a parameter set exactly when both tables are present, `group > 0`,
`1 <= bitslen <= 7` and `mask > 0`; the parameter set then has the truncated
quotient `egroup = group * 8 / bitslen`. Divisibility is not checked. -/
theorem baseN_init_accepts_iff (group bitslen : Nat) (entable detable : Option (List Nat))
    (mask : Nat) :
    ((∃ p, baseN_init group bitslen entable detable mask = some p) ↔
        (entable ≠ none ∧ detable ≠ none ∧ 0 < group ∧ 1 ≤ bitslen ∧ bitslen ≤ 7 ∧ 0 < mask)) ∧
      ∀ p, baseN_init group bitslen entable detable mask = some p →
        p.group = group ∧ p.bitslen = bitslen ∧ p.egroup = group * 8 / bitslen ∧
          p.mask = mask ∧ some p.entable = entable ∧ some p.detable = detable := by
  cases entable with
  | none => simp [baseN_init]
  | some en =>
    cases detable with
    | none => simp [baseN_init]
    | some de =>
      by_cases h : 0 < group ∧ (0 < bitslen ∧ bitslen < 8) ∧ 0 < mask
      · simp only [baseN_init, if_pos h]
        refine ⟨?_, ?_⟩
        · simp only [Option.some.injEq, exists_eq', ne_eq, not_false_eq_true, true_and,
            reduceCtorEq, true_iff]
          omega
        · intro p hp
          simp only [Option.some.injEq] at hp
          subst hp
          simp
      · simp only [baseN_init, if_neg h]
        refine ⟨?_, ?_⟩
        · simp only [reduceCtorEq, exists_false, ne_eq, not_false_eq_true, true_and, false_iff]
          omega
        · intro p hp
          simp at hp

set_option maxRecDepth 100000 in
/-- Witness of C15 as amended: the base64 arguments give the base64 parameter
set. -/
theorem baseN_init_accepts_iff_witness :
    (base64 true true).group = 3 ∧ (base64 true true).bitslen = 6 ∧
      (base64 true true).egroup = 3 * 8 / 6 ∧ (base64 true true).mask = 0x3F ∧
      some (base64 true true).entable = some base64_entable ∧
      some (base64 true true).detable = some base64_detable :=
  (baseN_init_accepts_iff 3 6 (some base64_entable) (some base64_detable) 0x3F).2
    (base64 true true) (by decide)

set_option maxRecDepth 100000 in
/-- Counterexample to C15 as stated: `group = 1`, `bitslen = 5` does not divide
exactly, yet `baseN_init` accepts it and stores the truncated `egroup = 1`. -/
theorem baseN_init_accepts_inexact :
    8 % 5 ≠ 0 ∧
      baseN_init 1 5 (some base64_entable) (some base64_detable) 0x1F =
        some
          { group := 1
            bitslen := 5
            egroup := 1
            chunkled := true
            padding := true
            entable := base64_entable
            detable := base64_detable
            mask := 0x1F } := by
  decide

/-- C16. Option surface: `baseN_init` leaves both options enabled; `baseN_setup`
with the chunking option returns `CODECOk` and changes only `chunkled`, with the
padding option returns `CODECOk` and changes only `padding`, and with any other
option returns `CODECIgnoredOption` and leaves every field unchanged. -/
theorem baseN_setup_option_surface (group bitslen : Nat) (entable detable : Option (List Nat))
    (mask : Nat) (p0 : baseN) (bn : baseN) (v : Int) (n : Nat)
    (h : baseN_init group bitslen entable detable mask = some p0) :
    (p0.chunkled = true ∧ p0.padding = true) ∧
      ((baseN_setup bn CODECOption.CODECBaseNChunkled v).1 = CODECode.CODECOk ∧
        (baseN_setup bn CODECOption.CODECBaseNChunkled v).2 =
          { bn with chunkled := (baseN_setup bn CODECOption.CODECBaseNChunkled v).2.chunkled }) ∧
      ((baseN_setup bn CODECOption.CODECBaseNPadding v).1 = CODECode.CODECOk ∧
        (baseN_setup bn CODECOption.CODECBaseNPadding v).2 =
          { bn with padding := (baseN_setup bn CODECOption.CODECBaseNPadding v).2.padding }) ∧
      baseN_setup bn (CODECOption.other n) v = (CODECode.CODECIgnoredOption, bn) := by
  refine ⟨?_, ⟨rfl, rfl⟩, ⟨rfl, rfl⟩, rfl⟩
  cases entable with
  | none => simp [baseN_init] at h
  | some en =>
    cases detable with
    | none => simp [baseN_init] at h
    | some de =>
      by_cases hc : 0 < group ∧ (0 < bitslen ∧ bitslen < 8) ∧ 0 < mask
      · simp only [baseN_init, if_pos hc, Option.some.injEq] at h
        subst h
        exact ⟨rfl, rfl⟩
      · simp [baseN_init, if_neg hc] at h

set_option maxRecDepth 100000 in
/-- Witness of C16: the base64 parameter set and the chunking option switched
off. -/
theorem baseN_setup_option_surface_witness :
    baseN_setup (base64 true true) CODECOption.CODECBaseNChunkled 0 =
        (CODECode.CODECOk, base64 false true) ∧
      ((base64 true true).chunkled = true ∧ (base64 true true).padding = true) :=
  ⟨by decide,
    (baseN_setup_option_surface 3 6 (some base64_entable) (some base64_detable) 0x3F
      (base64 true true) (base64 true true) 0 7 (by decide)).1⟩

/-- C17. Wire format: for a configuration with `mask = 2 ^ bitslen - 1` and an
`entable` of `2 ^ bitslen` characters, every table index `(t >> bits) & mask` is
inside `entable`, and what `baseN_encoding` stores is a run of `entable` entries
followed by `n` pad characters `=`, with adjacent CR LF pairs put in front of some
characters: no pad character is stored when padding is disabled (`n = 0`), and no
CR LF is stored when chunking is disabled. -/
theorem baseN_encoding_wire_format (p : baseN) (x : List Nat)
    (hmask : p.mask = 2 ^ p.bitslen - 1) (hlen : p.entable.length = 2 ^ p.bitslen) :
    (∀ t bits : Nat, (t >>> bits) &&& p.mask < 2 ^ p.bitslen ∧
        enc_at p ((t >>> bits) &&& p.mask) ∈ p.entable) ∧
      ∃ (syms : List Nat) (n : Nat),
        (∀ c ∈ syms, c ∈ p.entable) ∧
        (p.padding = false → n = 0) ∧
        breaks_inserted (syms ++ List.replicate n 61) (baseN_encoding p (some x) x.length) ∧
        (p.chunkled = false →
          baseN_encoding p (some x) x.length = syms ++ List.replicate n 61) := by
  constructor
  · intro t bits
    have h := index_lt_table p hmask hlen t bits
    exact ⟨hlen ▸ h, enc_at_mem p _ h⟩
  · refine ⟨alphabet_symbols p x x.length,
      (if p.padding = true ∧ x.length % p.group ≠ 0 then
        p.egroup - (x.length % p.group * 8 + p.bitslen - 1) / p.bitslen else 0),
      alphabet_symbols_mem p hmask hlen x x.length, ?_, ?_, ?_⟩
    · intro hp
      simp [hp]
    · rw [baseN_encoding_eq, symbol_stream_split]
      exact breaks_inserted_emits p _
    · intro hc
      rw [baseN_encoding_eq, symbol_stream_split, emits_unchunked p hc, List.nil_append]

set_option maxRecDepth 100000 in
/-- Witness of C17: `M` with the base64 configuration, chunking disabled, is
stored as two alphabet characters and two pad characters. -/
theorem baseN_encoding_wire_format_witness :
    (7 >>> 1) &&& (base64 false true).mask < 2 ^ (base64 false true).bitslen ∧
      baseN_encoding (base64 false true) (some [77]) [77].length = [84, 81, 61, 61] :=
  ⟨((baseN_encoding_wire_format (base64 false true) [77] (by decide) (by decide)).1 7 1).1,
    by decide⟩

/-- C18. Zero-valued trailing group is dropped: for an exact-division
configuration with `group <= 7`, `mask = 2 ^ bitslen - 1`, consistent tables and an
alphabet free of CR, LF and `=`, and a byte sequence `x` with
`left = len(x) mod group`, `baseN_decoding` of `baseN_encoding(x)` succeeds; it
returns `x` when `left = 0` or one of the last `left` bytes is non-zero, and `x`
without its last `left` bytes when `left != 0` and those bytes are all zero. -/
theorem baseN_roundtrip_zero_tail (p : baseN) (x : List Nat)
    (hg1 : 1 ≤ p.group) (hg7 : p.group ≤ 7) (hb1 : 1 ≤ p.bitslen) (hb7 : p.bitslen ≤ 7)
    (hdiv : p.bitslen ∣ p.group * 8) (he : p.egroup = p.group * 8 / p.bitslen)
    (hmask : p.mask = 2 ^ p.bitslen - 1)
    (htab : ∀ i, i < 2 ^ p.bitslen → dec_at p (enc_at p i) = i)
    (hfree : ∀ i, i < 2 ^ p.bitslen →
      enc_at p i ≠ 13 ∧ enc_at p i ≠ 10 ∧ enc_at p i ≠ 61)
    (hx : ∀ y ∈ x, y < 256) :
    ((x.length % p.group = 0 ∨ ∃ y ∈ x.drop (x.length - x.length % p.group), y ≠ 0) →
        baseN_decoding p (some (baseN_encoding p (some x) x.length))
          (baseN_encoding p (some x) x.length).length = some x) ∧
      ((x.length % p.group ≠ 0 ∧ ∀ y ∈ x.drop (x.length - x.length % p.group), y = 0) →
        baseN_decoding p (some (baseN_encoding p (some x) x.length))
          (baseN_encoding p (some x) x.length).length =
            some (x.take (x.length - x.length % p.group))) := by
  have hmod := Nat.mod_lt x.length (by omega : 0 < p.group)
  have hle := Nat.mod_le x.length p.group
  have hzero : bytes_value x (x.length - x.length % p.group) (x.length % p.group) = 0 ↔
      ∀ y ∈ x.drop (x.length - x.length % p.group), y = 0 := by
    rw [bytes_value_eq_zero_iff x (x.length - x.length % p.group) (x.length % p.group)
        (by omega),
      drop_all_zero_iff x (x.length - x.length % p.group) (x.length % p.group) (by omega)]
  rw [baseN_decoding_encoding p x hg1 hg7 hb1 hb7 hdiv he hmask htab hfree hx]
  constructor
  · rintro (h | ⟨y, hy, hy0⟩)
    · rw [if_pos (Or.inl h)]
    · rw [if_pos (Or.inr (fun hW => hy0 (hzero.mp hW y hy)))]
  · rintro ⟨h, hall⟩
    rw [if_neg (by
      rintro (h1 | h1)
      · exact h h1
      · exact h1 (hzero.mpr hall))]

set_option maxRecDepth 100000 in
/-- Witness of C18: with the base64 configuration the bytes 4D 00 come back whole,
while the bytes 4D 61 6E 00 come back without the trailing zero byte. -/
theorem baseN_roundtrip_zero_tail_witness :
    baseN_decoding (base64 true true)
        (some (baseN_encoding (base64 true true) (some [0x4D, 0]) [0x4D, 0].length))
        (baseN_encoding (base64 true true) (some [0x4D, 0]) [0x4D, 0].length).length =
        some [0x4D, 0] ∧
      baseN_decoding (base64 true true)
        (some (baseN_encoding (base64 true true) (some [0x4D, 0x61, 0x6E, 0])
          [0x4D, 0x61, 0x6E, 0].length))
        (baseN_encoding (base64 true true) (some [0x4D, 0x61, 0x6E, 0])
          [0x4D, 0x61, 0x6E, 0].length).length =
        some ([0x4D, 0x61, 0x6E, 0].take
          ([0x4D, 0x61, 0x6E, 0].length -
            [0x4D, 0x61, 0x6E, 0].length % (base64 true true).group)) :=
  ⟨(baseN_roundtrip_zero_tail (base64 true true) [0x4D, 0]
      (by decide) (by decide) (by decide) (by decide) (by decide) (by decide) (by decide)
      (by decide) (by decide) (by decide)).1 (by decide),
    (baseN_roundtrip_zero_tail (base64 true true) [0x4D, 0x61, 0x6E, 0]
      (by decide) (by decide) (by decide) (by decide) (by decide) (by decide) (by decide)
      (by decide) (by decide) (by decide)).2 (by decide)⟩

/-- C19. Non-exact division breaks round-tripping: for a configuration with
`group >= 1`, `1 <= bitslen <= 7`, `group * 8 mod bitslen != 0`, the truncated
`egroup = group * 8 / bitslen` and `mask = 2 ^ bitslen - 1`, the byte sequence of
`group` bytes `0xFF` does not round-trip: `baseN_decoding` of its encoding is not
that sequence (the first byte of any decoded output is below 128). -/
theorem baseN_roundtrip_fails_inexact (p : baseN) (hg : 1 ≤ p.group) (hb1 : 1 ≤ p.bitslen)
    (hb7 : p.bitslen ≤ 7) (hnd : p.group * 8 % p.bitslen ≠ 0)
    (he : p.egroup = p.group * 8 / p.bitslen) (hmask : p.mask = 2 ^ p.bitslen - 1) :
    baseN_decoding p
        (some (baseN_encoding p (some (List.replicate p.group 0xFF))
          (List.replicate p.group 0xFF).length))
        (baseN_encoding p (some (List.replicate p.group 0xFF))
          (List.replicate p.group 0xFF).length).length ≠
      some (List.replicate p.group 0xFF) := by
  intro h
  have h1 := baseN_decoding_first_byte p hg hb1 hb7 hnd he hmask _ _ h 0xFF
  have h2 : (List.replicate p.group 0xFF)[0]? = some 0xFF := by
    rw [List.getElem?_replicate, if_pos (by omega)]
  exact absurd (h1 h2) (by norm_num)

set_option maxRecDepth 100000 in
/-- Witness of C19: `group = 1`, `bitslen = 5`, `egroup = 1`, `mask = 0x1F` with the
first 32 base64 characters as alphabet. -/
theorem baseN_roundtrip_fails_inexact_witness :
    baseN_decoding { base64 true true with group := 1, bitslen := 5, egroup := 1, mask := 0x1F }
        (some (baseN_encoding
          { base64 true true with group := 1, bitslen := 5, egroup := 1, mask := 0x1F }
          (some (List.replicate 1 0xFF)) (List.replicate 1 0xFF).length))
        (baseN_encoding
          { base64 true true with group := 1, bitslen := 5, egroup := 1, mask := 0x1F }
          (some (List.replicate 1 0xFF)) (List.replicate 1 0xFF).length).length ≠
      some (List.replicate 1 0xFF) :=
  baseN_roundtrip_fails_inexact
    { base64 true true with group := 1, bitslen := 5, egroup := 1, mask := 0x1F }
    (by decide) (by decide) (by decide) (by decide) (by decide) (by decide)

/-- C20. Actual line-break offsets: with chunking enabled and an alphabet free of
CR and LF, the output of `baseN_encoding` has a CR at byte offset `j` exactly
when `j` is a positive multiple of 76 and an LF at offset `j` exactly when
`j > 76` and `j mod 76 = 1`. The output of `N` symbols has
`N + 2 * floor((N - 3) / 74)` bytes (a first line of 76 characters, later lines of
74) and never ends with a CR or an LF. -/
theorem baseN_encoding_break_offsets (p : baseN) (x : List Nat)
    (hc : p.chunkled = true) (h13 : 13 ∉ p.entable) (h10 : 10 ∉ p.entable) :
    (∀ j : Nat,
        ((baseN_encoding p (some x) x.length)[j]? = some 13 ↔
          (j < (baseN_encoding p (some x) x.length).length ∧ 0 < j ∧ j % 76 = 0)) ∧
        ((baseN_encoding p (some x) x.length)[j]? = some 10 ↔
          (j < (baseN_encoding p (some x) x.length).length ∧ 76 < j ∧ j % 76 = 1))) ∧
      (baseN_encoding p (some x) x.length).length =
        (symbol_stream p x x.length).length +
          2 * (((symbol_stream p x x.length).length - 3) / 74) ∧
      (baseN_encoding p (some x) x.length).getLast? ≠ some 13 ∧
      (baseN_encoding p (some x) x.length).getLast? ≠ some 10 := by
  have hinv : break_invariant (baseN_encoding p (some x) x.length) := by
    rw [baseN_encoding_eq]
    exact break_invariant_emits p hc _ (symbol_stream_no_break_chars p x x.length h13 h10) []
      break_invariant_nil
  have hlen : (baseN_encoding p (some x) x.length).length =
      (symbol_stream p x x.length).length +
        2 * (((symbol_stream p x x.length).length - 3) / 74) := by
    rw [baseN_encoding_eq, emits_length_chunked_nil p hc]
    rfl
  refine ⟨hinv.1, hlen, ?_, ?_⟩
  · intro h
    rw [List.getLast?_eq_getElem?] at h
    have := ((hinv.1 _).1.mp h)
    have h2 := hinv.2
    omega
  · intro h
    rw [List.getLast?_eq_getElem?] at h
    have := ((hinv.1 _).2.mp h)
    have h2 := hinv.2
    omega

set_option maxRecDepth 100000 in
/-- Witness of C20: 114 zero bytes with the base64 configuration, chunking and
padding enabled; the byte at offset 152 is a CR. -/
theorem baseN_encoding_break_offsets_witness :
    (baseN_encoding (base64 true true) (some (List.replicate 114 0))
        (List.replicate 114 0).length)[152]? = some 13 :=
  ((baseN_encoding_break_offsets (base64 true true) (List.replicate 114 0)
    (by decide) (by decide) (by decide)).1 152).1.mpr (by decide)

end Codec
